import Mathlib

/-!
Shallow embedding of the type-collection and name-resolution engine of the
dts2rs repository (src/data.ts, src/util.ts, src/collect.ts), together with
proofs about it.

Modelling conventions:
* TypeScript strings are Lean `String`s; `String.prototype.localeCompare`
  with the "en" locale is modelled by code-point comparison of the character
  lists, returning -1/0/1.  All strings this program compares are ASCII
  identifier-like strings (type kinds, escaped Rust names, `::`-joined
  namespace paths), on which en-locale collation and code-point order return
  0 for exactly the same pairs; the order itself coincides on the all-lowercase
  kind strings that drive sorting in the concrete scenarios below.
* JavaScript numbers appearing here are integers (array lengths, counters);
  they are modelled by `Int`/`Nat` with exact arithmetic.
* `Array.prototype.sort(cmp)` (stable since ES2019) is modelled by a stable
  insertion sort `sortBy`.  For a comparator that is a total preorder (proved
  below for `NamedFunction.cmp`) the output of any stable comparison sort is
  uniquely determined, so this is a faithful model.
* The generator `iterateResolvedNames` of src/data.ts yields an infinite
  stream of candidate names; it is modelled by the indexed candidate function
  `iterateResolvedNames f n`, giving the n-th value the generator yields.
  Each pending entry of the resolution loop carries the number of candidates
  its generator has produced so far (field `tries`).
* `Set<string>` is modelled by a `List String` with membership, and the
  mutable `ListOfFunctions` state by the underlying list of functions.
* `Set<InterfaceType>` in `forEachSuperImpl` is keyed by object identity;
  the interface graph is therefore modelled by node identifiers (`Nat`) with
  a `directImpls` adjacency function, and the callback sequence by the list
  of identifiers in call order.
-/

/-- Model of `String.prototype.localeCompare(_, "en")` on character lists:
code-point comparison returning -1/0/1 (see the modelling conventions). -/
def charListCmp : List Char → List Char → Int
  | [], [] => 0
  | [], _ :: _ => -1
  | _ :: _, [] => 1
  | a :: as, b :: bs => if a < b then -1 else if b < a then 1 else charListCmp as bs

/-- Model of `a.localeCompare(b, "en")` as used throughout src/data.ts. -/
def localeCompare (a b : String) : Int :=
  charListCmp a.data b.data

/-- src/util.ts `numToAbc` inner loop: the base-26 digit string of `n`
(digit `d` printed as the character `97 + d`), built most-significant first;
empty for `n = 0`.  The source builds the same string by prepending the
least-significant digit on each iteration of its `while (num > 0)` loop. -/
def abcDigits (n : Nat) : List Char :=
  if h : n = 0 then []
  else
    have : n / 26 < n := Nat.div_lt_self (Nat.pos_of_ne_zero h) (by norm_num)
    abcDigits (n / 26) ++ [Char.ofNat (97 + n % 26)]

/-- src/util.ts `numToAbc(num)`: "a" for 0, the base-26 letter string for
positive numbers, and an "N" prefix for negative numbers. -/
def numToAbc (num : Int) : String :=
  if num < 0 then String.mk ('N' :: abcDigits (-num).toNat)
  else if num = 0 then "a"
  else String.mk (abcDigits num.toNat)

/-- src/util.ts `rustKeywords` (the property names of the keyword object). -/
def rustKeywords : List String :=
  ["_", "as", "box", "break", "const", "continue", "crate", "else", "enum",
   "extern", "false", "fn", "for", "if", "impl", "in", "let", "loop", "match",
   "mod", "move", "mut", "pub", "ref", "return", "self", "Self", "static",
   "struct", "super", "trait", "true", "type", "unsafe", "use", "where",
   "while", "abstract", "alignof", "become", "do", "final", "macro",
   "offsetof", "override", "priv", "pure", "sizeof", "typeof", "unsized",
   "virtual", "yield", "async", "auto", "catch", "default", "dyn", "union"]

/-- The leading `while` of src/util.ts `escapeRustName`: repeatedly strip a
matching pair of surrounding double quotes (code 34) or single quotes
(code 39) while the string is longer than 2 characters. -/
def stripQuotes (l : List Char) : List Char :=
  if h : 2 < l.length ∧
      ((l.head? = some (Char.ofNat 34) ∧ l.getLast? = some (Char.ofNat 34)) ∨
       (l.head? = some (Char.ofNat 39) ∧ l.getLast? = some (Char.ofNat 39))) then
    have : ((l.drop 1).dropLast).length < l.length := by
      have h2 := h.1
      simp only [List.length_dropLast, List.length_drop]
      omega
    stripQuotes ((l.drop 1).dropLast)
  else l
termination_by l.length

/-- Lowercase hexadecimal digit character, as produced by JavaScript
`c.toString(16)` for one digit value `n < 16`. -/
def hexDigitChar (n : Nat) : Char :=
  if n < 10 then Char.ofNat (48 + n) else Char.ofNat (87 + n)

/-- JavaScript `c.toString(16)` for a non-negative integer: lowercase
hexadecimal digits, most significant first ("0" for 0). -/
def hexDigits (n : Nat) : List Char :=
  if h : n < 16 then [hexDigitChar n]
  else
    have : n / 16 < n := Nat.div_lt_self (by omega) (by norm_num)
    hexDigits (n / 16) ++ [hexDigitChar (n % 16)]

/-- One iteration of the character loop of src/util.ts `escapeRustName`:
`i` is the current index into the (quote-stripped, keyword-suffixed) name.
Letters, underscores, and digits in non-leading position are kept; `-` and
`.` become `_`; every other character becomes `_Ux<hex>`. -/
def escapeRustNameChars : List Char → Nat → List Char
  | [], _ => []
  | c :: rest, i =>
    let n := c.toNat
    if (97 ≤ n ∧ n ≤ 122) ∨ (65 ≤ n ∧ n ≤ 90) ∨ (48 ≤ n ∧ n ≤ 57 ∧ 0 < i) ∨ n = 95 then
      c :: escapeRustNameChars rest (i + 1)
    else if n = 45 ∨ n = 46 then
      Char.ofNat 95 :: escapeRustNameChars rest (i + 1)
    else
      (Char.ofNat 95 :: Char.ofNat 85 :: Char.ofNat 120 :: hexDigits n) ++
        escapeRustNameChars rest (i + 1)

/-- src/util.ts `escapeRustName`: strip surrounding quotes, append `__` to
Rust keywords, then escape character by character. -/
def escapeRustName (name : String) : String :=
  let l := stripQuotes name.data
  let l2 := if rustKeywords.contains (String.mk l) then l ++ [Char.ofNat 95, Char.ofNat 95] else l
  String.mk (escapeRustNameChars l2 0)

/-- src/data.ts `Namespace`, restricted to the fields its comparator and
constructor check use: the parent link and the (pre-escape) `jsName`.
`rustName` is recovered by `Namespace.rustName` below. -/
inductive Namespace where
  | mk (parent : Option Namespace) (jsName : String)

def Namespace.parent : Namespace → Option Namespace
  | .mk p _ => p

def Namespace.jsName : Namespace → String
  | .mk _ j => j

/-- The assignment `this.rustName = util.escapeRustName(this.jsName)` from the
`Namespace` constructor. -/
def Namespace.rustName (ns : Namespace) : String :=
  escapeRustName ns.jsName

/-- src/data.ts `Namespace.constructor`: a namespace with an empty `jsName`
and a defined parent throws (`throw "terminating..."`); modelled by
`Except`. -/
def mkNamespace (parent : Option Namespace) (jsName : String) : Except String Namespace :=
  if jsName = "" ∧ parent.isSome then
    Except.error "terminating..."
  else
    Except.ok (Namespace.mk parent jsName)

/-- The inner `rec` of src/data.ts `Namespace.toStringFull`: the `::`-joined
path of `rustName`s from the root, with empty components at the root elided. -/
def Namespace.pathRec : Namespace → String
  | .mk none j => escapeRustName j
  | .mk (some p) j =>
    let r := Namespace.pathRec p
    if r = "" then escapeRustName j else r ++ "::" ++ escapeRustName j

/-- src/data.ts `Namespace.toStringFull`. -/
def Namespace.toStringFull (ns : Namespace) : String :=
  let r := ns.pathRec
  if r = "" then "the root namespace" else "namespace " ++ r

/-- src/data.ts `Namespace.cmp`. -/
def Namespace.cmp (a b : Namespace) : Int :=
  localeCompare a.toStringFull b.toStringFull

mutual
/-- src/data.ts `Type`: the closed variant set.  Class and interface types
are represented by the fields their comparator reads (`rustName` and the
owning namespace); a function type carries its signature. -/
inductive Ty where
  | any
  | unknown
  | number
  | stringT
  | bool
  | symbol
  | undefinedT
  | nullT
  | voidT
  | neverT
  | optional (subtype : Ty)
  | classT (rustName : String) (namespace_ : Namespace)
  | interfaceT (rustName : String) (namespace_ : Namespace)
  | function (signature : FunctionType)

/-- src/data.ts `FunctionType`: ordered parameter list, return type, and the
diagnostic return-type display string. -/
inductive FunctionType where
  | mk (args : VarList) (returnType : Ty) (returnJsType : String)

/-- The parameter list of a `FunctionType` (a `Variable[]` in the source). -/
inductive VarList where
  | nil
  | cons (head : Variable) (tail : VarList)

/-- src/data.ts `Variable`. -/
inductive Variable where
  | mk (jsName : String) (jsType : String) (rustName : String) (type : Ty) (isOptional : Bool)
end

/-- The `kind` discriminant string of a `Type` (src/data.ts). -/
def Ty.kind : Ty → String
  | .any => "any"
  | .unknown => "unknown"
  | .number => "number"
  | .stringT => "string"
  | .bool => "bool"
  | .symbol => "symbol"
  | .undefinedT => "undefined"
  | .nullT => "null"
  | .voidT => "void"
  | .neverT => "never"
  | .optional _ => "optional"
  | .classT _ _ => "class"
  | .interfaceT _ _ => "interface"
  | .function _ => "function"

/-- The `canBeUndefined` flag of each `Type` variant (src/data.ts): true for
`any`, `unknown`, `undefined` and `optional`, false otherwise. -/
def Ty.canBeUndefined : Ty → Bool
  | .any => true
  | .unknown => true
  | .undefinedT => true
  | .optional _ => true
  | _ => false

def VarList.length : VarList → Nat
  | .nil => 0
  | .cons _ t => 1 + VarList.length t

def FunctionType.args : FunctionType → VarList
  | .mk a _ _ => a

def FunctionType.returnType : FunctionType → Ty
  | .mk _ r _ => r

mutual
/-- src/data.ts `cmpTypes`: types of different `kind` compare by
`localeCompare` of the kind strings (the final catch-all arm below);
`optional` recurses into the subtype; class, interface and function types
defer to their `cmp` methods; the remaining same-kind (primitive) pairs
compare equal. -/
def cmpTypes : Ty → Ty → Int
  | .optional sa, .optional sb => cmpTypes sa sb
  | .classT ra na, .classT rb nb => cmpClassOrInterface ra na rb nb
  | .interfaceT ra na, .interfaceT rb nb => cmpClassOrInterface ra na rb nb
  | .function fa, .function fb => FunctionType.cmp fa fb
  | a, b => if a.kind ≠ b.kind then localeCompare a.kind b.kind else 0
termination_by structural a _ => a

/-- src/data.ts `ClassOrInterface.cmp`: `rustName` first, then the owning
namespaces. -/
def cmpClassOrInterface (ra : String) (na : Namespace) (rb : String) (nb : Namespace) : Int :=
  if ra ≠ rb then localeCompare ra rb else Namespace.cmp na nb

/-- src/data.ts `FunctionType.cmp`: arity first, then parameters in order,
then the return type. -/
def FunctionType.cmp : FunctionType → FunctionType → Int
  | .mk argsA retA _, .mk argsB retB _ =>
    if argsA.length ≠ argsB.length then (argsA.length : Int) - (argsB.length : Int)
    else
      let c := VarList.cmpLex argsA argsB
      if c ≠ 0 then c else cmpTypes retA retB
termination_by structural a _ => a

/-- The parameter loop of src/data.ts `FunctionType.cmp`: first nonzero
elementwise comparison, 0 if all compare equal (the lists have equal length
when this is consulted). -/
def VarList.cmpLex : VarList → VarList → Int
  | .nil, _ => 0
  | .cons _ _, .nil => 0
  | .cons a as, .cons b bs =>
    let c := Variable.cmp a b
    if c ≠ 0 then c else VarList.cmpLex as bs
termination_by structural a _ => a

/-- src/data.ts `Variable.cmp`: `rustName` first, then the resolved type. -/
def Variable.cmp : Variable → Variable → Int
  | .mk _ _ ra ta _, .mk _ _ rb tb _ =>
    if ra ≠ rb then localeCompare ra rb else cmpTypes ta tb
termination_by structural a _ => a
end

/-- src/data.ts `typesAreSame`. -/
def typesAreSame (a b : Ty) : Prop :=
  cmpTypes a b = 0

/-- src/data.ts `Optional` class constructor: wraps a subtype. -/
def OptionalOf (subtype : Ty) : Ty :=
  Ty.optional subtype

/-- src/collect.ts `collectSymbolAndTypeWithoutStoring`, reduced to its
optional-wrapping step: when the symbol carries the Optional flag the
collected type is wrapped in `new data.Optional(result)` unconditionally
(the same unconditional wrap appears in `collectSignature` and
`collectMembers`). -/
def collectWrapOptional (isOptional : Bool) (result : Ty) : Ty :=
  if isOptional then OptionalOf result else result

/-- src/data.ts `NamedFunction`. -/
structure NamedFunction where
  unresolvedRustName : String
  jsName : String
  signature : FunctionType
  docs : String

/-- src/data.ts `NamedFunction.cmp`. -/
def NamedFunction.cmp (a b : NamedFunction) : Int :=
  if a.unresolvedRustName ≠ b.unresolvedRustName then
    localeCompare a.unresolvedRustName b.unresolvedRustName
  else
    FunctionType.cmp a.signature b.signature

/-- src/data.ts `NamedFunction.isSameAs`. -/
def NamedFunction.isSameAs (a b : NamedFunction) : Bool :=
  NamedFunction.cmp a b == 0

/-- src/data.ts `ListOfFunctions.add`, on the underlying `functions` list:
a no-op when an `isSameAs` function is already stored, otherwise push. -/
def listAdd (fs : List NamedFunction) (f : NamedFunction) : List NamedFunction :=
  if fs.any (fun g => f.isSameAs g) then fs else fs ++ [f]

/-- The `functions` list of a `ListOfFunctions` after a sequence of
`add` calls starting from the empty constructor. -/
def listAddAll (inputs : List NamedFunction) : List NamedFunction :=
  inputs.foldl listAdd []

/-- src/data.ts `iterateResolvedNames`, as the indexed candidate function:
`n`-th value yielded by the generator (0 = bare name, 1 = name_argcount,
2 + k = name_argcount followed by `numToAbc k`). -/
def iterateResolvedNames (f : NamedFunction) : Nat → String
  | 0 => f.unresolvedRustName
  | 1 => f.unresolvedRustName ++ "_" ++ Nat.repr f.signature.args.length
  | k + 2 =>
    f.unresolvedRustName ++ "_" ++ Nat.repr f.signature.args.length ++
      numToAbc (k : Int)

/-- Stable insertion of `x` into a list sorted by the comparator `c`: `x` is
placed before the first element `g` with `¬(c g x < 0)`, so elements
comparing equal to `x` that were inserted earlier stay before it. -/
def insertBy (c : α → α → Int) (x : α) : List α → List α
  | [] => [x]
  | g :: rest => if c g x < 0 then g :: insertBy c x rest else x :: g :: rest

/-- Stable sort by comparator `c`; models `Array.prototype.sort` (stable per
ES2019) as called in src/data.ts `getResolvedFunctions` — for the total
preorder `NamedFunction.cmp` (proved below) the result of any stable
comparison sort is uniquely determined, so this insertion sort is a faithful
model of the JavaScript engine's sort. -/
def sortBy (c : α → α → Int) : List α → List α
  | [] => []
  | x :: rest => insertBy c x (sortBy c rest)

/-- One entry of the `notResolvedYet` array in src/data.ts
`getResolvedFunctions`: a function together with the number of candidate
names its generator has yielded so far. -/
structure Resolver where
  f : NamedFunction
  tries : Nat

/-- One pass of the `filter` inside the `while` loop of
`getResolvedFunctions`: each pending entry pulls its next candidate name;
if the name was already output the entry stays pending (generator advanced),
otherwise the name is claimed and the pair appended to the result. -/
def resolveRound :
    List Resolver → List String → List (String × NamedFunction) →
      List Resolver × List String × List (String × NamedFunction)
  | [], seen, out => ([], seen, out)
  | r :: rest, seen, out =>
    let name := iterateResolvedNames r.f r.tries
    if name ∈ seen then
      let s := resolveRound rest seen out
      (⟨r.f, r.tries + 1⟩ :: s.1, s.2.1, s.2.2)
    else
      resolveRound rest (name :: seen) (out ++ [(name, r.f)])

/-- The `while (notResolvedYet.length > 0)` loop of `getResolvedFunctions`,
with explicit fuel (the loop terminates; `getResolvedFunctions_complete`
below proves that `n + 2` rounds always suffice for `n` functions). -/
def resolveLoop :
    Nat → List Resolver → List String → List (String × NamedFunction) →
      List Resolver × List String × List (String × NamedFunction)
  | 0, pending, seen, out => (pending, seen, out)
  | fuel + 1, pending, seen, out =>
    match pending with
    | [] => ([], seen, out)
    | r :: rest =>
      let s := resolveRound (r :: rest) seen out
      resolveLoop fuel s.1 s.2.1 s.2.2

/-- src/data.ts `ListOfFunctions.getResolvedFunctions` on the stored
`functions` list: sort by `NamedFunction.cmp`, then run the fixed-point
naming loop.  Returns the list of `(resolvedName, function)` pairs
(`NameResolvedFunction`s). -/
def getResolvedFunctions (fs : List NamedFunction) : List (String × NamedFunction) :=
  let sorted := sortBy NamedFunction.cmp fs
  (resolveLoop (fs.length + 2) (sorted.map (fun f => ⟨f, 0⟩)) [] []).2.2

/-- The recursive helper `rec` shared by src/data.ts
`InterfaceType.forEachSuperImpl` and `ClassType.forEachSuperImpl`:
depth-first walk of the `directImpls` graph with a visited set, emitting
each newly visited interface after its own `directImpls` (post-order).
Interfaces are identified by node ids (the source's `Set<InterfaceType>` is
keyed by object identity); `fuel` bounds the recursion depth (the source
relies on the graph being a DAG).  Returns (visited, emitted). -/
def superImplRec (impls : Nat → List Nat) :
    Nat → List Nat → List Nat → Nat → List Nat × List Nat
  | 0, visited, emitted, _ => (visited, emitted)
  | fuel + 1, visited, emitted, node =>
    (impls node).foldl
      (fun st i =>
        if i ∈ st.1 then st
        else
          let st2 := superImplRec impls fuel (i :: st.1) st.2 i
          (st2.1, st2.2 ++ [i]))
      (visited, emitted)

/-- src/data.ts `InterfaceType.forEachSuperImpl`: fresh visited set, then
`rec(this)`; the callback sequence is the emitted list. -/
def interfaceForEachSuperImpl (impls : Nat → List Nat) (self : Nat) (fuel : Nat) : List Nat :=
  (superImplRec impls fuel [] [] self).2

/-- The `directImpls` adjacency of the diamond scenario: interface A (node 0)
directly implements B (1) and C (2); B and C each directly implement D (3). -/
def diamondImpls : Nat → List Nat
  | 0 => [1, 2]
  | 1 => [3]
  | 2 => [3]
  | _ => []

/-- src/data.ts `ClassOrInterface` constructor, restricted to the fields the
claims read: `rustName` is the escaped `jsName`. -/
structure ClassOrInterfaceData where
  jsName : String
  rustName : String
  docs : String

def mkClassOrInterface (jsName : String) (docs : String) : ClassOrInterfaceData :=
  { jsName := jsName, rustName := escapeRustName jsName, docs := docs }

/-- A character that may appear in an escaped Rust identifier: ASCII letter,
ASCII digit, or underscore. -/
def isRustNameChar (c : Char) : Bool :=
  (97 ≤ c.toNat ∧ c.toNat ≤ 122) ∨ (65 ≤ c.toNat ∧ c.toNat ≤ 90) ∨
    (48 ≤ c.toNat ∧ c.toNat ≤ 57) ∨ c.toNat = 95

/-- An ASCII digit. -/
def isAsciiDigit (c : Char) : Bool :=
  48 ≤ c.toNat ∧ c.toNat ≤ 57

/-! ## Properties of the string comparator -/

theorem charListCmp_eq_zero_iff : ∀ a b : List Char, charListCmp a b = 0 ↔ a = b := by
  intro a
  induction a with
  | nil => intro b; cases b <;> simp [charListCmp]
  | cons x xs ih =>
    intro b
    cases b with
    | nil => simp [charListCmp]
    | cons y ys =>
      simp only [charListCmp]
      rcases lt_trichotomy x y with h | h | h
      · simp [h, ne_of_lt h]
      · subst h
        simp [lt_irrefl, ih]
      · simp [h, not_lt_of_gt h, (ne_of_lt h).symm]

theorem charListCmp_flip : ∀ a b : List Char, charListCmp a b = -(charListCmp b a) := by
  intro a
  induction a with
  | nil => intro b; cases b <;> simp [charListCmp]
  | cons x xs ih =>
    intro b
    cases b with
    | nil => simp [charListCmp]
    | cons y ys =>
      simp only [charListCmp]
      rcases lt_trichotomy x y with h | h | h
      · simp [h, not_lt_of_gt h]
      · subst h
        simp [lt_irrefl, ih]
      · simp [h, not_lt_of_gt h]

theorem charListCmp_le_trans :
    ∀ a b c : List Char, charListCmp a b ≤ 0 → charListCmp b c ≤ 0 → charListCmp a c ≤ 0 := by
  intro a
  induction a with
  | nil =>
    intro b c _ _
    cases c <;> simp [charListCmp]
  | cons x xs ih =>
    intro b c hab hbc
    cases b with
    | nil => simp [charListCmp] at hab
    | cons y ys =>
      cases c with
      | nil => simp [charListCmp] at hbc
      | cons z zs =>
        simp only [charListCmp] at hab hbc ⊢
        rcases lt_trichotomy x y with hxy | hxy | hxy
        · rcases lt_trichotomy y z with hyz | hyz | hyz
          · have hxz : x < z := lt_trans hxy hyz
            simp [hxz]
          · subst hyz
            simp [hxy]
          · exfalso
            rw [if_neg (not_lt_of_gt hyz), if_pos hyz] at hbc
            omega
        · subst hxy
          rw [if_neg (lt_irrefl x)] at hab
          simp only [lt_irrefl, if_false] at hab
          rcases lt_trichotomy x z with hxz | hxz | hxz
          · simp [hxz]
          · subst hxz
            rw [if_neg (lt_irrefl x)]
            simp only [lt_irrefl, if_false]
            rw [if_neg (lt_irrefl x)] at hbc
            simp only [lt_irrefl, if_false] at hbc
            exact ih ys zs hab hbc
          · exfalso
            rw [if_neg (not_lt_of_gt hxz), if_pos hxz] at hbc
            omega
        · exfalso
          rw [if_neg (not_lt_of_gt hxy), if_pos hxy] at hab
          omega

theorem localeCompare_eq_zero_iff (a b : String) : localeCompare a b = 0 ↔ a = b := by
  unfold localeCompare
  rw [charListCmp_eq_zero_iff]
  constructor
  · intro h
    cases a; cases b; exact congrArg String.mk h
  · intro h; rw [h]

theorem localeCompare_flip (a b : String) : localeCompare a b = -(localeCompare b a) :=
  charListCmp_flip a.data b.data

theorem localeCompare_le_trans (a b c : String) :
    localeCompare a b ≤ 0 → localeCompare b c ≤ 0 → localeCompare a c ≤ 0 :=
  charListCmp_le_trans a.data b.data c.data

theorem localeCompare_self (a : String) : localeCompare a a = 0 := by
  rw [localeCompare_eq_zero_iff]

/-! ## Unfolding equations for the comparators -/

theorem cmpTypes_optional_eq (sa sb : Ty) :
    cmpTypes (Ty.optional sa) (Ty.optional sb) = cmpTypes sa sb := rfl

theorem cmpTypes_classT_eq (ra : String) (na : Namespace) (rb : String) (nb : Namespace) :
    cmpTypes (Ty.classT ra na) (Ty.classT rb nb) = cmpClassOrInterface ra na rb nb := rfl

theorem cmpTypes_interfaceT_eq (ra : String) (na : Namespace) (rb : String) (nb : Namespace) :
    cmpTypes (Ty.interfaceT ra na) (Ty.interfaceT rb nb) = cmpClassOrInterface ra na rb nb := rfl

theorem cmpTypes_function_eq (fa fb : FunctionType) :
    cmpTypes (Ty.function fa) (Ty.function fb) = FunctionType.cmp fa fb := rfl

theorem functionTypeCmp_eq (argsA : VarList) (retA : Ty) (sA : String)
    (argsB : VarList) (retB : Ty) (sB : String) :
    FunctionType.cmp (.mk argsA retA sA) (.mk argsB retB sB) =
      if argsA.length ≠ argsB.length then (argsA.length : Int) - (argsB.length : Int)
      else if VarList.cmpLex argsA argsB ≠ 0 then VarList.cmpLex argsA argsB
      else cmpTypes retA retB := rfl

theorem varListCmpLex_cons_eq (a : Variable) (as : VarList) (b : Variable) (bs : VarList) :
    VarList.cmpLex (.cons a as) (.cons b bs) =
      if Variable.cmp a b ≠ 0 then Variable.cmp a b else VarList.cmpLex as bs := rfl

theorem variableCmp_eq (ja ta ra : String) (tya : Ty) (oa : Bool)
    (jb tb rb : String) (tyb : Ty) (ob : Bool) :
    Variable.cmp (.mk ja ta ra tya oa) (.mk jb tb rb tyb ob) =
      if ra ≠ rb then localeCompare ra rb else cmpTypes tya tyb := rfl

/-- Antisymmetry transfer through one lexicographic level. -/
theorem lex2_flip {c1 c1' c2 c2' : Int} (h1 : c1 = -c1') (h2 : c2 = -c2') :
    (if c1 ≠ 0 then c1 else c2) = -(if c1' ≠ 0 then c1' else c2') := by
  by_cases hz : c1' = 0
  · have hz1 : c1 = 0 := by omega
    simp [hz, hz1, h2]
  · have hz1 : c1 ≠ 0 := by omega
    simp [hz, hz1, h1]

theorem cmpTypes_eq_of_kind_ne (a b : Ty) (h : a.kind ≠ b.kind) :
    cmpTypes a b = localeCompare a.kind b.kind := by
  cases a <;> cases b <;> simp only [Ty.kind] at h ⊢ <;>
    first | rfl | exact absurd h (by decide)

theorem cmpClassOrInterface_flip (ra : String) (na : Namespace) (rb : String) (nb : Namespace) :
    cmpClassOrInterface ra na rb nb = -(cmpClassOrInterface rb nb ra na) := by
  unfold cmpClassOrInterface
  by_cases h : ra = rb
  · subst h
    simp only [ne_eq, not_true_eq_false, if_false]
    exact localeCompare_flip _ _
  · rw [if_pos h, if_pos (Ne.symm h)]
    exact localeCompare_flip ra rb

mutual
theorem cmpTypes_flip (a b : Ty) : cmpTypes a b = -(cmpTypes b a) := by
  by_cases hk : a.kind = b.kind
  · cases a <;> cases b <;> simp only [Ty.kind] at hk <;>
      first
      | rfl
      | exact absurd hk (by decide)
      | (rw [cmpTypes_optional_eq, cmpTypes_optional_eq]; exact cmpTypes_flip _ _)
      | (rw [cmpTypes_classT_eq, cmpTypes_classT_eq]; exact cmpClassOrInterface_flip _ _ _ _)
      | (rw [cmpTypes_interfaceT_eq, cmpTypes_interfaceT_eq]; exact cmpClassOrInterface_flip _ _ _ _)
      | (rw [cmpTypes_function_eq, cmpTypes_function_eq]; exact functionTypeCmp_flip _ _)
  · rw [cmpTypes_eq_of_kind_ne a b hk, cmpTypes_eq_of_kind_ne b a (Ne.symm hk),
      localeCompare_flip]
termination_by sizeOf a

theorem functionTypeCmp_flip (fa fb : FunctionType) :
    FunctionType.cmp fa fb = -(FunctionType.cmp fb fa) := by
  rcases fa with ⟨argsA, retA, sA⟩
  rcases fb with ⟨argsB, retB, sB⟩
  rw [functionTypeCmp_eq, functionTypeCmp_eq]
  rcases eq_or_ne argsA.length argsB.length with h | h
  · rw [h]
    rw [if_neg (fun hh : argsB.length ≠ argsB.length => hh rfl)]
    rw [if_neg (fun hh : argsB.length ≠ argsB.length => hh rfl)]
    exact lex2_flip (varListCmpLex_flip argsA argsB) (cmpTypes_flip retA retB)
  · rw [if_pos h, if_pos (Ne.symm h)]
    omega
termination_by sizeOf fa

theorem varListCmpLex_flip (va vb : VarList) : VarList.cmpLex va vb = -(VarList.cmpLex vb va) := by
  cases va with
  | nil => cases vb <;> rfl
  | cons a as =>
    cases vb with
    | nil => rfl
    | cons b bs =>
      rw [varListCmpLex_cons_eq, varListCmpLex_cons_eq]
      exact lex2_flip (variableCmp_flip a b) (varListCmpLex_flip as bs)
termination_by sizeOf va

theorem variableCmp_flip (a b : Variable) : Variable.cmp a b = -(Variable.cmp b a) := by
  rcases a with ⟨ja, ta, ra, tya, oa⟩
  rcases b with ⟨jb, tb, rb, tyb, ob⟩
  rw [variableCmp_eq, variableCmp_eq]
  by_cases h : ra = rb
  · subst h
    simp only [ne_eq, not_true_eq_false, if_false]
    exact cmpTypes_flip tya tyb
  · rw [if_pos h, if_pos (Ne.symm h)]
    exact localeCompare_flip ra rb
termination_by sizeOf a
end

/-! ## The zero relation of the comparators -/

theorem lex2_zero_iff {c1 c2 : Int} :
    (if c1 ≠ 0 then c1 else c2) = 0 ↔ c1 = 0 ∧ c2 = 0 := by
  by_cases h : c1 = 0 <;> simp [h]

theorem string_guard_zero_iff (ra rb : String) (x : Int) :
    (if ra ≠ rb then localeCompare ra rb else x) = 0 ↔ ra = rb ∧ x = 0 := by
  by_cases h : ra = rb
  · simp [h]
  · have hlc : localeCompare ra rb ≠ 0 := fun hh => h ((localeCompare_eq_zero_iff ra rb).mp hh)
    simp [h, hlc]

theorem arity_guard_zero_iff (la lb : Nat) (x : Int) :
    (if la ≠ lb then (la : Int) - (lb : Int) else x) = 0 ↔ la = lb ∧ x = 0 := by
  by_cases h : la = lb
  · simp [h]
  · have : (la : Int) - (lb : Int) ≠ 0 := by omega
    simp [h, this]

theorem kind_optional_inv (b : Ty) (h : b.kind = "optional") : ∃ sb, b = Ty.optional sb := by
  cases b <;> first | exact ⟨_, rfl⟩ | (simp only [Ty.kind] at h; exact absurd h (by decide))

theorem kind_classT_inv (b : Ty) (h : b.kind = "class") : ∃ rb nb, b = Ty.classT rb nb := by
  cases b <;> first | exact ⟨_, _, rfl⟩ | (simp only [Ty.kind] at h; exact absurd h (by decide))

theorem kind_interfaceT_inv (b : Ty) (h : b.kind = "interface") : ∃ rb nb, b = Ty.interfaceT rb nb := by
  cases b <;> first | exact ⟨_, _, rfl⟩ | (simp only [Ty.kind] at h; exact absurd h (by decide))

theorem kind_function_inv (b : Ty) (h : b.kind = "function") : ∃ fb, b = Ty.function fb := by
  cases b <;> first | exact ⟨_, rfl⟩ | (simp only [Ty.kind] at h; exact absurd h (by decide))

theorem cmpTypes_kind_eq_of_zero {a b : Ty} (h : cmpTypes a b = 0) : a.kind = b.kind := by
  by_contra hk
  rw [cmpTypes_eq_of_kind_ne a b hk] at h
  exact hk ((localeCompare_eq_zero_iff _ _).mp h)

theorem cmpClassOrInterface_zero_trans (ra : String) (na : Namespace) (rb : String) (nb : Namespace)
    (rc : String) (nc : Namespace) (hab : cmpClassOrInterface ra na rb nb = 0)
    (hbc : cmpClassOrInterface rb nb rc nc = 0) : cmpClassOrInterface ra na rc nc = 0 := by
  unfold cmpClassOrInterface at *
  rw [string_guard_zero_iff] at hab hbc
  rw [string_guard_zero_iff]
  unfold Namespace.cmp at *
  rw [localeCompare_eq_zero_iff] at *
  exact ⟨hab.1.trans hbc.1, hab.2.trans hbc.2⟩

mutual
theorem cmpTypes_zero_trans (a b c : Ty)
    (hab : cmpTypes a b = 0) (hbc : cmpTypes b c = 0) : cmpTypes a c = 0 := by
  have hk1 : a.kind = b.kind := cmpTypes_kind_eq_of_zero hab
  have hk2 : b.kind = c.kind := cmpTypes_kind_eq_of_zero hbc
  cases a with
  | optional sa =>
    obtain ⟨sb, rfl⟩ := kind_optional_inv b hk1.symm
    obtain ⟨sc, rfl⟩ := kind_optional_inv c (hk1.symm.trans hk2).symm
    rw [cmpTypes_optional_eq] at hab hbc ⊢
    exact cmpTypes_zero_trans sa sb sc hab hbc
  | classT ra na =>
    obtain ⟨rb, nb, rfl⟩ := kind_classT_inv b hk1.symm
    obtain ⟨rc, nc, rfl⟩ := kind_classT_inv c (hk1.symm.trans hk2).symm
    rw [cmpTypes_classT_eq] at hab hbc ⊢
    exact cmpClassOrInterface_zero_trans ra na rb nb rc nc hab hbc
  | interfaceT ra na =>
    obtain ⟨rb, nb, rfl⟩ := kind_interfaceT_inv b hk1.symm
    obtain ⟨rc, nc, rfl⟩ := kind_interfaceT_inv c (hk1.symm.trans hk2).symm
    rw [cmpTypes_interfaceT_eq] at hab hbc ⊢
    exact cmpClassOrInterface_zero_trans ra na rb nb rc nc hab hbc
  | function fa =>
    obtain ⟨fb, rfl⟩ := kind_function_inv b hk1.symm
    obtain ⟨fc, rfl⟩ := kind_function_inv c (hk1.symm.trans hk2).symm
    rw [cmpTypes_function_eq] at hab hbc ⊢
    exact functionTypeCmp_zero_trans fa fb fc hab hbc
  | any =>
    have : c.kind = "any" := (hk1.trans hk2).symm ▸ rfl
    cases c <;> first | rfl | (simp only [Ty.kind] at this; exact absurd this (by decide))
  | unknown =>
    have : c.kind = "unknown" := (hk1.trans hk2).symm ▸ rfl
    cases c <;> first | rfl | (simp only [Ty.kind] at this; exact absurd this (by decide))
  | number =>
    have : c.kind = "number" := (hk1.trans hk2).symm ▸ rfl
    cases c <;> first | rfl | (simp only [Ty.kind] at this; exact absurd this (by decide))
  | stringT =>
    have : c.kind = "string" := (hk1.trans hk2).symm ▸ rfl
    cases c <;> first | rfl | (simp only [Ty.kind] at this; exact absurd this (by decide))
  | bool =>
    have : c.kind = "bool" := (hk1.trans hk2).symm ▸ rfl
    cases c <;> first | rfl | (simp only [Ty.kind] at this; exact absurd this (by decide))
  | symbol =>
    have : c.kind = "symbol" := (hk1.trans hk2).symm ▸ rfl
    cases c <;> first | rfl | (simp only [Ty.kind] at this; exact absurd this (by decide))
  | undefinedT =>
    have : c.kind = "undefined" := (hk1.trans hk2).symm ▸ rfl
    cases c <;> first | rfl | (simp only [Ty.kind] at this; exact absurd this (by decide))
  | nullT =>
    have : c.kind = "null" := (hk1.trans hk2).symm ▸ rfl
    cases c <;> first | rfl | (simp only [Ty.kind] at this; exact absurd this (by decide))
  | voidT =>
    have : c.kind = "void" := (hk1.trans hk2).symm ▸ rfl
    cases c <;> first | rfl | (simp only [Ty.kind] at this; exact absurd this (by decide))
  | neverT =>
    have : c.kind = "never" := (hk1.trans hk2).symm ▸ rfl
    cases c <;> first | rfl | (simp only [Ty.kind] at this; exact absurd this (by decide))
termination_by sizeOf a + sizeOf b + sizeOf c

theorem functionTypeCmp_zero_trans :
    ∀ (fa fb fc : FunctionType),
      FunctionType.cmp fa fb = 0 → FunctionType.cmp fb fc = 0 → FunctionType.cmp fa fc = 0
  | ⟨argsA, retA, sA⟩, ⟨argsB, retB, sB⟩, ⟨argsC, retC, sC⟩, hab, hbc => by
    rw [functionTypeCmp_eq, arity_guard_zero_iff, lex2_zero_iff] at hab hbc ⊢
    obtain ⟨hl1, hv1, hr1⟩ := hab
    obtain ⟨hl2, hv2, hr2⟩ := hbc
    exact ⟨hl1.trans hl2,
      varListCmpLex_zero_trans argsA argsB argsC hl1 hl2 hv1 hv2,
      cmpTypes_zero_trans retA retB retC hr1 hr2⟩
termination_by fa fb fc _ _ => sizeOf fa + sizeOf fb + sizeOf fc

theorem varListCmpLex_zero_trans (va vb vc : VarList)
    (hl1 : va.length = vb.length) (hl2 : vb.length = vc.length)
    (hab : VarList.cmpLex va vb = 0) (hbc : VarList.cmpLex vb vc = 0) :
    VarList.cmpLex va vc = 0 := by
  cases va with
  | nil =>
    cases vc with
    | nil => rfl
    | cons c cs =>
      simp only [VarList.length] at hl1 hl2
      omega
  | cons a as =>
    cases vb with
    | nil => simp only [VarList.length] at hl1; omega
    | cons b bs =>
      cases vc with
      | nil => simp only [VarList.length] at hl2; omega
      | cons c cs =>
        simp only [VarList.length] at hl1 hl2
        rw [varListCmpLex_cons_eq, lex2_zero_iff] at hab hbc ⊢
        exact ⟨variableCmp_zero_trans a b c hab.1 hbc.1,
          varListCmpLex_zero_trans as bs cs (by omega) (by omega) hab.2 hbc.2⟩
termination_by sizeOf va + sizeOf vb + sizeOf vc

theorem variableCmp_zero_trans :
    ∀ (a b c : Variable), Variable.cmp a b = 0 → Variable.cmp b c = 0 → Variable.cmp a c = 0
  | ⟨ja, ta, ra, tya, oa⟩, ⟨jb, tb, rb, tyb, ob⟩, ⟨jc, tc, rc, tyc, oc⟩, hab, hbc => by
    rw [variableCmp_eq, string_guard_zero_iff] at hab hbc ⊢
    exact ⟨hab.1.trans hbc.1, cmpTypes_zero_trans tya tyb tyc hab.2 hbc.2⟩
termination_by a b c _ _ => sizeOf a + sizeOf b + sizeOf c
end

theorem cmpTypes_refl (a : Ty) : cmpTypes a a = 0 := by
  have := cmpTypes_flip a a
  omega

theorem cmpTypes_zero_symm (a b : Ty) : cmpTypes a b = 0 ↔ cmpTypes b a = 0 := by
  have := cmpTypes_flip a b
  omega

/-! ## Transitivity of the comparators -/

theorem string_guard_eq (ra rb : String) (x : Int) :
    (if ra ≠ rb then localeCompare ra rb else x) =
      if localeCompare ra rb ≠ 0 then localeCompare ra rb else x := by
  by_cases h : ra = rb
  · subst h
    rw [if_neg (fun hh : ra ≠ ra => hh rfl),
      if_neg (fun hh : localeCompare ra ra ≠ 0 => hh (localeCompare_self ra))]
  · rw [if_pos h, if_pos (fun hh : localeCompare ra rb = 0 =>
      h ((localeCompare_eq_zero_iff ra rb).mp hh))]

theorem arity_guard_eq (la lb : Nat) (x : Int) :
    (if la ≠ lb then (la : Int) - (lb : Int) else x) =
      if ((la : Int) - (lb : Int)) ≠ 0 then (la : Int) - (lb : Int) else x := by
  by_cases h : la = lb
  · subst h
    rw [if_neg (fun hh : la ≠ la => hh rfl), if_neg (by omega : ¬((la : Int) - (la : Int)) ≠ 0)]
  · rw [if_pos h, if_pos (by omega : ((la : Int) - (lb : Int)) ≠ 0)]

theorem localeCompare_zero_split (a b c : String) (hac : localeCompare a c = 0)
    (hab : localeCompare a b ≤ 0) (hbc : localeCompare b c ≤ 0) :
    localeCompare a b = 0 ∧ localeCompare b c = 0 := by
  have hac' : a = c := (localeCompare_eq_zero_iff a c).mp hac
  subst hac'
  have hflip := localeCompare_flip a b
  have hab0 : localeCompare a b = 0 := by omega
  have : a = b := (localeCompare_eq_zero_iff a b).mp hab0
  subst this
  exact ⟨hab0, hab0⟩

/-- Transitivity transfer through one lexicographic level; the second-level
facts are only needed when the first level is tied. -/
theorem lex2_trans {ab1 bc1 ac1 ab2 bc2 ac2 : Int}
    (h1 : ab1 ≤ 0 → bc1 ≤ 0 → ac1 ≤ 0)
    (hsplit : ac1 = 0 → ab1 ≤ 0 → bc1 ≤ 0 → ab1 = 0 ∧ bc1 = 0)
    (h2 : ab1 = 0 → bc1 = 0 → ab2 ≤ 0 → bc2 ≤ 0 → ac2 ≤ 0)
    (hab : (if ab1 ≠ 0 then ab1 else ab2) ≤ 0)
    (hbc : (if bc1 ≠ 0 then bc1 else bc2) ≤ 0) :
    (if ac1 ≠ 0 then ac1 else ac2) ≤ 0 := by
  have hab1 : ab1 ≤ 0 := by
    by_cases h : ab1 = 0
    · omega
    · rw [if_pos h] at hab; exact hab
  have hbc1 : bc1 ≤ 0 := by
    by_cases h : bc1 = 0
    · omega
    · rw [if_pos h] at hbc; exact hbc
  have hac1 : ac1 ≤ 0 := h1 hab1 hbc1
  by_cases h : ac1 = 0
  · obtain ⟨hz1, hz2⟩ := hsplit h hab1 hbc1
    rw [if_neg (fun hh : ab1 ≠ 0 => hh hz1)] at hab
    rw [if_neg (fun hh : bc1 ≠ 0 => hh hz2)] at hbc
    rw [if_neg (fun hh : ac1 ≠ 0 => hh h)]
    exact h2 hz1 hz2 hab hbc
  · rw [if_pos h]
    exact hac1

/-- Zero-splitting transfer through one lexicographic level. -/
theorem lex2_split {ab1 bc1 ac1 ab2 bc2 ac2 : Int}
    (hsplit1 : ac1 = 0 → ab1 ≤ 0 → bc1 ≤ 0 → ab1 = 0 ∧ bc1 = 0)
    (hsplit2 : ab1 = 0 → bc1 = 0 → ac2 = 0 → ab2 ≤ 0 → bc2 ≤ 0 → ab2 = 0 ∧ bc2 = 0)
    (hac : (if ac1 ≠ 0 then ac1 else ac2) = 0)
    (hab : (if ab1 ≠ 0 then ab1 else ab2) ≤ 0)
    (hbc : (if bc1 ≠ 0 then bc1 else bc2) ≤ 0) :
    (if ab1 ≠ 0 then ab1 else ab2) = 0 ∧ (if bc1 ≠ 0 then bc1 else bc2) = 0 := by
  have hac1 : ac1 = 0 ∧ ac2 = 0 := by
    by_cases h : ac1 = 0
    · rw [if_neg (fun hh : ac1 ≠ 0 => hh h)] at hac
      exact ⟨h, hac⟩
    · rw [if_pos h] at hac
      exact absurd hac h
  have hab1 : ab1 ≤ 0 := by
    by_cases h : ab1 = 0
    · omega
    · rw [if_pos h] at hab; exact hab
  have hbc1 : bc1 ≤ 0 := by
    by_cases h : bc1 = 0
    · omega
    · rw [if_pos h] at hbc; exact hbc
  obtain ⟨hz1, hz2⟩ := hsplit1 hac1.1 hab1 hbc1
  rw [if_neg (fun hh : ab1 ≠ 0 => hh hz1)] at hab ⊢
  rw [if_neg (fun hh : bc1 ≠ 0 => hh hz2)] at hbc ⊢
  exact hsplit2 hz1 hz2 hac1.2 hab hbc

theorem cmpClassOrInterface_le_trans (ra : String) (na : Namespace) (rb : String) (nb : Namespace)
    (rc : String) (nc : Namespace) (hab : cmpClassOrInterface ra na rb nb ≤ 0)
    (hbc : cmpClassOrInterface rb nb rc nc ≤ 0) : cmpClassOrInterface ra na rc nc ≤ 0 := by
  unfold cmpClassOrInterface at *
  rw [string_guard_eq] at hab hbc ⊢
  exact lex2_trans (localeCompare_le_trans ra rb rc) (localeCompare_zero_split ra rb rc)
    (fun _ _ => localeCompare_le_trans _ _ _) hab hbc

theorem cmpClassOrInterface_zero_split (ra : String) (na : Namespace) (rb : String)
    (nb : Namespace) (rc : String) (nc : Namespace)
    (hac : cmpClassOrInterface ra na rc nc = 0) (hab : cmpClassOrInterface ra na rb nb ≤ 0)
    (hbc : cmpClassOrInterface rb nb rc nc ≤ 0) :
    cmpClassOrInterface ra na rb nb = 0 ∧ cmpClassOrInterface rb nb rc nc = 0 := by
  unfold cmpClassOrInterface at *
  rw [string_guard_eq] at hac hab hbc ⊢
  rw [string_guard_eq rb rc]
  exact lex2_split (localeCompare_zero_split ra rb rc)
    (fun _ _ => localeCompare_zero_split _ _ _) hac hab hbc

theorem kind_any_inv (b : Ty) (h : b.kind = "any") : b = Ty.any := by
  cases b <;> first | rfl | (simp only [Ty.kind] at h; exact absurd h (by decide))

theorem kind_unknown_inv (b : Ty) (h : b.kind = "unknown") : b = Ty.unknown := by
  cases b <;> first | rfl | (simp only [Ty.kind] at h; exact absurd h (by decide))

theorem kind_number_inv (b : Ty) (h : b.kind = "number") : b = Ty.number := by
  cases b <;> first | rfl | (simp only [Ty.kind] at h; exact absurd h (by decide))

theorem kind_stringT_inv (b : Ty) (h : b.kind = "string") : b = Ty.stringT := by
  cases b <;> first | rfl | (simp only [Ty.kind] at h; exact absurd h (by decide))

theorem kind_bool_inv (b : Ty) (h : b.kind = "bool") : b = Ty.bool := by
  cases b <;> first | rfl | (simp only [Ty.kind] at h; exact absurd h (by decide))

theorem kind_symbol_inv (b : Ty) (h : b.kind = "symbol") : b = Ty.symbol := by
  cases b <;> first | rfl | (simp only [Ty.kind] at h; exact absurd h (by decide))

theorem kind_undefinedT_inv (b : Ty) (h : b.kind = "undefined") : b = Ty.undefinedT := by
  cases b <;> first | rfl | (simp only [Ty.kind] at h; exact absurd h (by decide))

theorem kind_nullT_inv (b : Ty) (h : b.kind = "null") : b = Ty.nullT := by
  cases b <;> first | rfl | (simp only [Ty.kind] at h; exact absurd h (by decide))

theorem kind_voidT_inv (b : Ty) (h : b.kind = "void") : b = Ty.voidT := by
  cases b <;> first | rfl | (simp only [Ty.kind] at h; exact absurd h (by decide))

theorem kind_neverT_inv (b : Ty) (h : b.kind = "never") : b = Ty.neverT := by
  cases b <;> first | rfl | (simp only [Ty.kind] at h; exact absurd h (by decide))

mutual
theorem cmpTypes_le_trans (a b c : Ty)
    (hab : cmpTypes a b ≤ 0) (hbc : cmpTypes b c ≤ 0) : cmpTypes a c ≤ 0 := by
  by_cases hk1 : a.kind = b.kind
  · by_cases hk2 : b.kind = c.kind
    · have hk2' : a.kind = c.kind := hk1.trans hk2
      cases a with
      | optional sa =>
        obtain ⟨sb, rfl⟩ := kind_optional_inv b hk1.symm
        obtain ⟨sc, rfl⟩ := kind_optional_inv c hk2'.symm
        rw [cmpTypes_optional_eq] at hab hbc ⊢
        exact cmpTypes_le_trans sa sb sc hab hbc
      | classT ra na =>
        obtain ⟨rb, nb, rfl⟩ := kind_classT_inv b hk1.symm
        obtain ⟨rc, nc, rfl⟩ := kind_classT_inv c hk2'.symm
        rw [cmpTypes_classT_eq] at hab hbc ⊢
        exact cmpClassOrInterface_le_trans ra na rb nb rc nc hab hbc
      | interfaceT ra na =>
        obtain ⟨rb, nb, rfl⟩ := kind_interfaceT_inv b hk1.symm
        obtain ⟨rc, nc, rfl⟩ := kind_interfaceT_inv c hk2'.symm
        rw [cmpTypes_interfaceT_eq] at hab hbc ⊢
        exact cmpClassOrInterface_le_trans ra na rb nb rc nc hab hbc
      | function fa =>
        obtain ⟨fb, rfl⟩ := kind_function_inv b hk1.symm
        obtain ⟨fc, rfl⟩ := kind_function_inv c hk2'.symm
        rw [cmpTypes_function_eq] at hab hbc ⊢
        exact functionTypeCmp_le_trans fa fb fc hab hbc
      | any =>
        obtain rfl := kind_any_inv c hk2'.symm
        decide
      | unknown =>
        obtain rfl := kind_unknown_inv c hk2'.symm
        decide
      | number =>
        obtain rfl := kind_number_inv c hk2'.symm
        decide
      | stringT =>
        obtain rfl := kind_stringT_inv c hk2'.symm
        decide
      | bool =>
        obtain rfl := kind_bool_inv c hk2'.symm
        decide
      | symbol =>
        obtain rfl := kind_symbol_inv c hk2'.symm
        decide
      | undefinedT =>
        obtain rfl := kind_undefinedT_inv c hk2'.symm
        decide
      | nullT =>
        obtain rfl := kind_nullT_inv c hk2'.symm
        decide
      | voidT =>
        obtain rfl := kind_voidT_inv c hk2'.symm
        decide
      | neverT =>
        obtain rfl := kind_neverT_inv c hk2'.symm
        decide
    · have hk3 : a.kind ≠ c.kind := by rw [hk1]; exact hk2
      rw [cmpTypes_eq_of_kind_ne b c hk2] at hbc
      rw [cmpTypes_eq_of_kind_ne a c hk3, hk1]
      exact hbc
  · by_cases hk2 : b.kind = c.kind
    · have hk3 : a.kind ≠ c.kind := fun h => hk1 (h.trans hk2.symm)
      rw [cmpTypes_eq_of_kind_ne a b hk1] at hab
      rw [cmpTypes_eq_of_kind_ne a c hk3, ← hk2]
      exact hab
    · rw [cmpTypes_eq_of_kind_ne a b hk1] at hab
      rw [cmpTypes_eq_of_kind_ne b c hk2] at hbc
      have hk3 : a.kind ≠ c.kind := by
        intro h
        rw [h] at hab
        have hflip := localeCompare_flip c.kind b.kind
        have h1 : localeCompare b.kind c.kind = 0 := by omega
        exact hk2 ((localeCompare_eq_zero_iff _ _).mp h1)
      rw [cmpTypes_eq_of_kind_ne a c hk3]
      exact localeCompare_le_trans _ _ _ hab hbc
termination_by sizeOf a + sizeOf b + sizeOf c

theorem cmpTypes_zero_split (a b c : Ty)
    (hac : cmpTypes a c = 0) (hab : cmpTypes a b ≤ 0) (hbc : cmpTypes b c ≤ 0) :
    cmpTypes a b = 0 ∧ cmpTypes b c = 0 := by
  have hk2' : a.kind = c.kind := cmpTypes_kind_eq_of_zero hac
  have hk1 : a.kind = b.kind := by
    by_contra hk1
    rw [cmpTypes_eq_of_kind_ne a b hk1] at hab
    have hk2 : b.kind ≠ c.kind := fun h => hk1 (hk2'.trans h.symm)
    rw [cmpTypes_eq_of_kind_ne b c hk2] at hbc
    rw [← hk2'] at hbc
    have hflip := localeCompare_flip a.kind b.kind
    have h1 : localeCompare a.kind b.kind = 0 := by omega
    exact hk1 ((localeCompare_eq_zero_iff _ _).mp h1)
  cases a with
  | optional sa =>
    obtain ⟨sb, rfl⟩ := kind_optional_inv b hk1.symm
    obtain ⟨sc, rfl⟩ := kind_optional_inv c hk2'.symm
    rw [cmpTypes_optional_eq] at hac hab hbc ⊢
    rw [cmpTypes_optional_eq]
    exact cmpTypes_zero_split sa sb sc hac hab hbc
  | classT ra na =>
    obtain ⟨rb, nb, rfl⟩ := kind_classT_inv b hk1.symm
    obtain ⟨rc, nc, rfl⟩ := kind_classT_inv c hk2'.symm
    rw [cmpTypes_classT_eq] at hac hab hbc ⊢
    rw [cmpTypes_classT_eq]
    exact cmpClassOrInterface_zero_split ra na rb nb rc nc hac hab hbc
  | interfaceT ra na =>
    obtain ⟨rb, nb, rfl⟩ := kind_interfaceT_inv b hk1.symm
    obtain ⟨rc, nc, rfl⟩ := kind_interfaceT_inv c hk2'.symm
    rw [cmpTypes_interfaceT_eq] at hac hab hbc ⊢
    rw [cmpTypes_interfaceT_eq]
    exact cmpClassOrInterface_zero_split ra na rb nb rc nc hac hab hbc
  | function fa =>
    obtain ⟨fb, rfl⟩ := kind_function_inv b hk1.symm
    obtain ⟨fc, rfl⟩ := kind_function_inv c hk2'.symm
    rw [cmpTypes_function_eq] at hac hab hbc ⊢
    rw [cmpTypes_function_eq]
    exact functionTypeCmp_zero_split fa fb fc hac hab hbc
  | any =>
    obtain rfl := kind_any_inv b hk1.symm
    obtain rfl := kind_any_inv c hk2'.symm
    exact ⟨rfl, rfl⟩
  | unknown =>
    obtain rfl := kind_unknown_inv b hk1.symm
    obtain rfl := kind_unknown_inv c hk2'.symm
    exact ⟨rfl, rfl⟩
  | number =>
    obtain rfl := kind_number_inv b hk1.symm
    obtain rfl := kind_number_inv c hk2'.symm
    exact ⟨rfl, rfl⟩
  | stringT =>
    obtain rfl := kind_stringT_inv b hk1.symm
    obtain rfl := kind_stringT_inv c hk2'.symm
    exact ⟨rfl, rfl⟩
  | bool =>
    obtain rfl := kind_bool_inv b hk1.symm
    obtain rfl := kind_bool_inv c hk2'.symm
    exact ⟨rfl, rfl⟩
  | symbol =>
    obtain rfl := kind_symbol_inv b hk1.symm
    obtain rfl := kind_symbol_inv c hk2'.symm
    exact ⟨rfl, rfl⟩
  | undefinedT =>
    obtain rfl := kind_undefinedT_inv b hk1.symm
    obtain rfl := kind_undefinedT_inv c hk2'.symm
    exact ⟨rfl, rfl⟩
  | nullT =>
    obtain rfl := kind_nullT_inv b hk1.symm
    obtain rfl := kind_nullT_inv c hk2'.symm
    exact ⟨rfl, rfl⟩
  | voidT =>
    obtain rfl := kind_voidT_inv b hk1.symm
    obtain rfl := kind_voidT_inv c hk2'.symm
    exact ⟨rfl, rfl⟩
  | neverT =>
    obtain rfl := kind_neverT_inv b hk1.symm
    obtain rfl := kind_neverT_inv c hk2'.symm
    exact ⟨rfl, rfl⟩
termination_by sizeOf a + sizeOf b + sizeOf c

theorem functionTypeCmp_le_trans :
    ∀ (fa fb fc : FunctionType),
      FunctionType.cmp fa fb ≤ 0 → FunctionType.cmp fb fc ≤ 0 → FunctionType.cmp fa fc ≤ 0
  | ⟨argsA, retA, sA⟩, ⟨argsB, retB, sB⟩, ⟨argsC, retC, sC⟩, hab, hbc => by
    rw [functionTypeCmp_eq, arity_guard_eq] at hab hbc ⊢
    refine lex2_trans (by omega) (by omega) (fun hz1 hz2 hab2 hbc2 => ?_) hab hbc
    have hl1 : argsA.length = argsB.length := by omega
    have hl2 : argsB.length = argsC.length := by omega
    exact lex2_trans (varListCmpLex_le_trans argsA argsB argsC hl1 hl2)
      (varListCmpLex_zero_split argsA argsB argsC hl1 hl2)
      (fun _ _ => cmpTypes_le_trans retA retB retC) hab2 hbc2
termination_by fa fb fc _ _ => sizeOf fa + sizeOf fb + sizeOf fc

theorem functionTypeCmp_zero_split :
    ∀ (fa fb fc : FunctionType), FunctionType.cmp fa fc = 0 →
      FunctionType.cmp fa fb ≤ 0 → FunctionType.cmp fb fc ≤ 0 →
      FunctionType.cmp fa fb = 0 ∧ FunctionType.cmp fb fc = 0
  | ⟨argsA, retA, sA⟩, ⟨argsB, retB, sB⟩, ⟨argsC, retC, sC⟩, hac, hab, hbc => by
    rw [functionTypeCmp_eq, arity_guard_eq] at hac hab hbc ⊢
    rw [functionTypeCmp_eq, arity_guard_eq]
    refine lex2_split (by omega) (fun hz1 hz2 hac2 hab2 hbc2 => ?_) hac hab hbc
    have hl1 : argsA.length = argsB.length := by omega
    have hl2 : argsB.length = argsC.length := by omega
    exact lex2_split (varListCmpLex_zero_split argsA argsB argsC hl1 hl2)
      (fun _ _ => cmpTypes_zero_split retA retB retC) hac2 hab2 hbc2
termination_by fa fb fc _ _ _ => sizeOf fa + sizeOf fb + sizeOf fc

theorem varListCmpLex_le_trans (va vb vc : VarList)
    (hl1 : va.length = vb.length) (hl2 : vb.length = vc.length)
    (hab : VarList.cmpLex va vb ≤ 0) (hbc : VarList.cmpLex vb vc ≤ 0) :
    VarList.cmpLex va vc ≤ 0 := by
  cases va with
  | nil => exact Int.le_refl 0
  | cons a as =>
    cases vb with
    | nil => simp only [VarList.length] at hl1; omega
    | cons b bs =>
      cases vc with
      | nil => simp only [VarList.length] at hl2; omega
      | cons c cs =>
        simp only [VarList.length] at hl1 hl2
        rw [varListCmpLex_cons_eq] at hab hbc ⊢
        exact lex2_trans (variableCmp_le_trans a b c) (variableCmp_zero_split a b c)
          (fun _ _ => varListCmpLex_le_trans as bs cs (by omega) (by omega)) hab hbc
termination_by sizeOf va + sizeOf vb + sizeOf vc

theorem varListCmpLex_zero_split (va vb vc : VarList)
    (hl1 : va.length = vb.length) (hl2 : vb.length = vc.length)
    (hac : VarList.cmpLex va vc = 0) (hab : VarList.cmpLex va vb ≤ 0)
    (hbc : VarList.cmpLex vb vc ≤ 0) :
    VarList.cmpLex va vb = 0 ∧ VarList.cmpLex vb vc = 0 := by
  cases va with
  | nil =>
    cases vb with
    | nil =>
      cases vc with
      | nil => exact ⟨rfl, rfl⟩
      | cons c cs => simp only [VarList.length] at hl2; omega
    | cons b bs => simp only [VarList.length] at hl1; omega
  | cons a as =>
    cases vb with
    | nil => simp only [VarList.length] at hl1; omega
    | cons b bs =>
      cases vc with
      | nil => simp only [VarList.length] at hl2; omega
      | cons c cs =>
        simp only [VarList.length] at hl1 hl2
        rw [varListCmpLex_cons_eq] at hac hab hbc ⊢
        rw [varListCmpLex_cons_eq]
        exact lex2_split (variableCmp_zero_split a b c)
          (fun _ _ => varListCmpLex_zero_split as bs cs (by omega) (by omega)) hac hab hbc
termination_by sizeOf va + sizeOf vb + sizeOf vc

theorem variableCmp_le_trans :
    ∀ (a b c : Variable), Variable.cmp a b ≤ 0 → Variable.cmp b c ≤ 0 → Variable.cmp a c ≤ 0
  | ⟨ja, ta, ra, tya, oa⟩, ⟨jb, tb, rb, tyb, ob⟩, ⟨jc, tc, rc, tyc, oc⟩, hab, hbc => by
    rw [variableCmp_eq, string_guard_eq] at hab hbc ⊢
    exact lex2_trans (localeCompare_le_trans ra rb rc) (localeCompare_zero_split ra rb rc)
      (fun _ _ => cmpTypes_le_trans tya tyb tyc) hab hbc
termination_by a b c _ _ => sizeOf a + sizeOf b + sizeOf c

theorem variableCmp_zero_split :
    ∀ (a b c : Variable), Variable.cmp a c = 0 → Variable.cmp a b ≤ 0 → Variable.cmp b c ≤ 0 →
      Variable.cmp a b = 0 ∧ Variable.cmp b c = 0
  | ⟨ja, ta, ra, tya, oa⟩, ⟨jb, tb, rb, tyb, ob⟩, ⟨jc, tc, rc, tyc, oc⟩, hac, hab, hbc => by
    rw [variableCmp_eq, string_guard_eq] at hac hab hbc ⊢
    rw [variableCmp_eq, string_guard_eq]
    exact lex2_split (localeCompare_zero_split ra rb rc)
      (fun _ _ => cmpTypes_zero_split tya tyb tyc) hac hab hbc
termination_by a b c _ _ _ => sizeOf a + sizeOf b + sizeOf c
end

/-! ## The NamedFunction comparator -/

theorem namedFunctionCmp_def (a b : NamedFunction) :
    NamedFunction.cmp a b =
      if a.unresolvedRustName ≠ b.unresolvedRustName then
        localeCompare a.unresolvedRustName b.unresolvedRustName
      else FunctionType.cmp a.signature b.signature := rfl

theorem namedFunctionCmp_flip (a b : NamedFunction) :
    NamedFunction.cmp a b = -(NamedFunction.cmp b a) := by
  rw [namedFunctionCmp_def, namedFunctionCmp_def]
  by_cases h : a.unresolvedRustName = b.unresolvedRustName
  · rw [h]
    rw [if_neg (fun hh : b.unresolvedRustName ≠ b.unresolvedRustName => hh rfl)]
    rw [if_neg (fun hh : b.unresolvedRustName ≠ b.unresolvedRustName => hh rfl)]
    exact functionTypeCmp_flip _ _
  · rw [if_pos h, if_pos (Ne.symm h)]
    exact localeCompare_flip _ _

theorem namedFunctionCmp_refl (a : NamedFunction) : NamedFunction.cmp a a = 0 := by
  have := namedFunctionCmp_flip a a
  omega

theorem namedFunctionCmp_le_total (a b : NamedFunction) :
    NamedFunction.cmp a b ≤ 0 ∨ NamedFunction.cmp b a ≤ 0 := by
  have := namedFunctionCmp_flip a b
  omega

theorem namedFunctionCmp_le_trans (a b c : NamedFunction)
    (hab : NamedFunction.cmp a b ≤ 0) (hbc : NamedFunction.cmp b c ≤ 0) :
    NamedFunction.cmp a c ≤ 0 := by
  rw [namedFunctionCmp_def, string_guard_eq] at hab hbc ⊢
  exact lex2_trans (localeCompare_le_trans _ _ _) (localeCompare_zero_split _ _ _)
    (fun _ _ => functionTypeCmp_le_trans _ _ _) hab hbc

theorem namedFunctionCmp_zero_trans (a b c : NamedFunction)
    (hab : NamedFunction.cmp a b = 0) (hbc : NamedFunction.cmp b c = 0) :
    NamedFunction.cmp a c = 0 := by
  rw [namedFunctionCmp_def, string_guard_zero_iff] at hab hbc ⊢
  exact ⟨hab.1.trans hbc.1, functionTypeCmp_zero_trans _ _ _ hab.2 hbc.2⟩

theorem namedFunctionIsSameAs_iff (a b : NamedFunction) :
    NamedFunction.isSameAs a b = true ↔ NamedFunction.cmp a b = 0 := by
  unfold NamedFunction.isSameAs
  exact beq_iff_eq ..

/-! ## The stable sort -/

theorem insertBy_perm (c : α → α → Int) (x : α) :
    ∀ l : List α, (insertBy c x l).Perm (x :: l)
  | [] => List.Perm.refl _
  | g :: rest => by
    unfold insertBy
    by_cases h : c g x < 0
    · rw [if_pos h]
      exact ((insertBy_perm c x rest).cons g).trans (List.Perm.swap x g rest)
    · rw [if_neg h]

theorem sortBy_perm (c : α → α → Int) : ∀ l : List α, (sortBy c l).Perm l
  | [] => List.Perm.refl _
  | x :: rest => by
    unfold sortBy
    exact (insertBy_perm c x (sortBy c rest)).trans ((sortBy_perm c rest).cons x)

theorem mem_insertBy (c : α → α → Int) (x : α) (l : List α) (y : α) :
    y ∈ insertBy c x l ↔ y = x ∨ y ∈ l := by
  rw [(insertBy_perm c x l).mem_iff]
  simp

theorem insertBy_pairwise (hflip : ∀ a b : α, c a b = -(c b a))
    (htrans : ∀ a b d : α, c a b ≤ 0 → c b d ≤ 0 → c a d ≤ 0) (x : α) :
    ∀ l : List α, l.Pairwise (fun a b => c a b ≤ 0) →
      (insertBy c x l).Pairwise (fun a b => c a b ≤ 0)
  | [], _ => by simp [insertBy]
  | g :: rest, hp => by
    unfold insertBy
    rw [List.pairwise_cons] at hp
    by_cases h : c g x < 0
    · rw [if_pos h]
      rw [List.pairwise_cons]
      constructor
      · intro y hy
        rw [mem_insertBy] at hy
        rcases hy with rfl | hy
        · omega
        · exact hp.1 y hy
      · exact insertBy_pairwise hflip htrans x rest hp.2
    · rw [if_neg h]
      rw [List.pairwise_cons]
      have hxg : c x g ≤ 0 := by have := hflip x g; omega
      constructor
      · intro y hy
        rcases List.mem_cons.mp hy with rfl | hy
        · exact hxg
        · exact htrans x g y hxg (hp.1 y hy)
      · exact List.pairwise_cons.mpr hp

theorem sortBy_pairwise (hflip : ∀ a b : α, c a b = -(c b a))
    (htrans : ∀ a b d : α, c a b ≤ 0 → c b d ≤ 0 → c a d ≤ 0) :
    ∀ l : List α, (sortBy c l).Pairwise (fun a b => c a b ≤ 0)
  | [] => List.Pairwise.nil
  | x :: rest => by
    unfold sortBy
    exact insertBy_pairwise hflip htrans x (sortBy c rest) (sortBy_pairwise hflip htrans rest)

/-- Two sorted lists that are permutations of each other and whose elements
are pairwise distinguished by the comparator are equal. -/
theorem sorted_perm_eq {α : Type} (c : α → α → Int) (hflip : ∀ a b : α, c a b = -(c b a)) :
    ∀ l₁ l₂ : List α, l₁.Perm l₂ → l₁.Pairwise (fun a b => c a b ≤ 0) →
      l₂.Pairwise (fun a b => c a b ≤ 0) → l₁.Pairwise (fun a b => ¬(c a b = 0)) → l₁ = l₂
  | [], l₂, hperm, _, _, _ => (hperm.nil_eq).symm ▸ rfl
  | x :: xs, [], hperm, _, _, _ => absurd hperm.length_eq (by simp)
  | x :: xs, y :: ys, hperm, hs1, hs2, hd => by
    rw [List.pairwise_cons] at hs1 hs2
    rcases eq_or_ne x y with rfl | hxy
    · have htail : xs.Perm ys := (List.perm_cons x).mp hperm
      rw [sorted_perm_eq c hflip xs ys htail hs1.2 hs2.2 (List.Pairwise.sublist (List.sublist_cons_self x xs) hd)]
    · exfalso
      have hxmem : x ∈ y :: ys := hperm.subset (List.mem_cons_self x xs)
      have hymem : y ∈ x :: xs := hperm.symm.subset (List.mem_cons_self y ys)
      have hyx : y ∈ xs := by
        rcases List.mem_cons.mp hymem with h | h
        · exact absurd h.symm hxy
        · exact h
      have hxy' : x ∈ ys := by
        rcases List.mem_cons.mp hxmem with h | h
        · exact absurd h hxy
        · exact h
      have h1 : c x y ≤ 0 := hs1.1 y hyx
      have h2 : c y x ≤ 0 := hs2.1 x hxy'
      have h0 : c x y = 0 := by have := hflip x y; omega
      rw [List.pairwise_cons] at hd
      exact hd.1 y hyx h0

/-! ## Injectivity of numToAbc -/

theorem abc_char_inj : ∀ i j : Fin 26, Char.ofNat (97 + i.val) = Char.ofNat (97 + j.val) → i = j := by
  decide

theorem abcDigits_zero : abcDigits 0 = [] := by
  simp [abcDigits]

theorem abcDigits_pos_eq (n : Nat) (hn : n ≠ 0) :
    abcDigits n = abcDigits (n / 26) ++ [Char.ofNat (97 + n % 26)] := by
  rw [abcDigits, dif_neg hn]

theorem abcDigits_eq_nil_iff (n : Nat) : abcDigits n = [] ↔ n = 0 := by
  constructor
  · intro h
    by_contra hn
    rw [abcDigits_pos_eq n hn] at h
    simp at h
  · intro h
    rw [h, abcDigits_zero]

theorem abcDigits_inj : ∀ m n : Nat, abcDigits m = abcDigits n → m = n := by
  intro m
  induction m using Nat.strong_induction_on with
  | _ m ih =>
    intro n h
    by_cases hm : m = 0
    · subst hm
      rw [abcDigits_zero] at h
      exact ((abcDigits_eq_nil_iff n).mp h.symm).symm
    · by_cases hn : n = 0
      · subst hn
        rw [abcDigits_zero] at h
        exact absurd ((abcDigits_eq_nil_iff m).mp h) hm
      · rw [abcDigits_pos_eq m hm, abcDigits_pos_eq n hn] at h
        rw [← List.concat_eq_append, ← List.concat_eq_append, List.concat_inj] at h
        have hdiv : m / 26 = n / 26 :=
          ih (m / 26) (Nat.div_lt_self (Nat.pos_of_ne_zero hm) (by norm_num)) (n / 26) h.1
        have h1 : (⟨m % 26, Nat.mod_lt m (by norm_num)⟩ : Fin 26) =
            ⟨n % 26, Nat.mod_lt n (by norm_num)⟩ := abc_char_inj _ _ h.2
        have hmod : m % 26 = n % 26 := congrArg Fin.val h1
        omega

theorem abcDigits_ne_singleton_a (n : Nat) (hn : n ≠ 0) : abcDigits n ≠ ['a'] := by
  intro h
  rw [abcDigits_pos_eq n hn] at h
  rw [← List.concat_eq_append, show ['a'] = List.concat [] 'a' from rfl, List.concat_inj] at h
  have hdiv : n / 26 = 0 := (abcDigits_eq_nil_iff _).mp h.1
  have h1 : (⟨n % 26, Nat.mod_lt n (by norm_num)⟩ : Fin 26) = ⟨0, by norm_num⟩ :=
    abc_char_inj _ _ (by simpa using h.2)
  have hmod : n % 26 = 0 := congrArg Fin.val h1
  omega

theorem string_mk_inj {l₁ l₂ : List Char} (h : String.mk l₁ = String.mk l₂) : l₁ = l₂ := by
  injection h

theorem numToAbc_zero : numToAbc 0 = "a" := rfl

theorem numToAbc_pos_eq (n : Int) (hn : 0 < n) : numToAbc n = String.mk (abcDigits n.toNat) := by
  unfold numToAbc
  rw [if_neg (by omega), if_neg (by omega)]

theorem numToAbc_inj_nonneg (m n : Int) (hm : 0 ≤ m) (hn : 0 ≤ n)
    (h : numToAbc m = numToAbc n) : m = n := by
  by_cases hm0 : m = 0
  · by_cases hn0 : n = 0
    · omega
    · subst hm0
      rw [numToAbc_zero, numToAbc_pos_eq n (by omega),
        show ("a" : String) = String.mk ['a'] from rfl] at h
      have : abcDigits n.toNat = ['a'] := (string_mk_inj h).symm
      exact absurd this (abcDigits_ne_singleton_a n.toNat (by omega))
  · by_cases hn0 : n = 0
    · subst hn0
      rw [numToAbc_zero, numToAbc_pos_eq m (by omega),
        show ("a" : String) = String.mk ['a'] from rfl] at h
      have : abcDigits m.toNat = ['a'] := string_mk_inj h
      exact absurd this (abcDigits_ne_singleton_a m.toNat (by omega))
    · rw [numToAbc_pos_eq m (by omega), numToAbc_pos_eq n (by omega)] at h
      have := abcDigits_inj m.toNat n.toNat (string_mk_inj h)
      omega

/-- The candidate names at generator positions 2, 3, … are pairwise distinct
for a fixed function. -/
theorem iterateResolvedNames_inj_ge_two (f : NamedFunction) (i j : Nat)
    (h : iterateResolvedNames f (i + 2) = iterateResolvedNames f (j + 2)) : i = j := by
  unfold iterateResolvedNames at h
  have hdata := congrArg String.data h
  simp only [String.data_append] at hdata
  have h2 := List.append_cancel_left hdata
  have h3 : numToAbc (i : Int) = numToAbc (j : Int) := by
    have e1 : numToAbc (i : Int) = String.mk (numToAbc (i : Int)).data := rfl
    have e2 : numToAbc (j : Int) = String.mk (numToAbc (j : Int)).data := rfl
    rw [e1, e2, h2]
  have := numToAbc_inj_nonneg (i : Int) (j : Int) (by omega) (by omega) h3
  omega

/-! ## The name resolution loop: one round -/

theorem resolveRound_nil (seen : List String) (out : List (String × NamedFunction)) :
    resolveRound [] seen out = ([], seen, out) := rfl

theorem resolveRound_cons_mem (r : Resolver) (rest : List Resolver) (seen : List String)
    (out : List (String × NamedFunction)) (h : iterateResolvedNames r.f r.tries ∈ seen) :
    resolveRound (r :: rest) seen out =
      ((⟨r.f, r.tries + 1⟩ : Resolver) :: (resolveRound rest seen out).1,
        (resolveRound rest seen out).2.1, (resolveRound rest seen out).2.2) := by
  simp only [resolveRound]
  rw [if_pos h]


theorem resolveRound_cons_notMem (r : Resolver) (rest : List Resolver) (seen : List String)
    (out : List (String × NamedFunction)) (h : ¬(iterateResolvedNames r.f r.tries ∈ seen)) :
    resolveRound (r :: rest) seen out =
      resolveRound rest (iterateResolvedNames r.f r.tries :: seen)
        (out ++ [(iterateResolvedNames r.f r.tries, r.f)]) := by
  simp only [resolveRound]
  rw [if_neg h]


/-- Claiming a fresh name preserves the correspondence between the seen set
and the output names. -/
theorem seen_iff_cons {seen : List String} {out : List (String × NamedFunction)}
    (hiff : ∀ x, x ∈ seen ↔ x ∈ out.map Prod.fst) (name : String) (f : NamedFunction) :
    ∀ x, x ∈ name :: seen ↔ x ∈ (out ++ [(name, f)]).map Prod.fst := by
  intro x
  rw [List.mem_cons, List.map_append, List.mem_append]
  simp only [List.map_cons, List.map_nil, List.mem_singleton]
  rw [hiff x]
  tauto

theorem resolveRound_seen_iff :
    ∀ (p : List Resolver) (seen : List String) (out : List (String × NamedFunction)),
      (∀ x, x ∈ seen ↔ x ∈ out.map Prod.fst) →
      ∀ x, x ∈ (resolveRound p seen out).2.1 ↔ x ∈ (resolveRound p seen out).2.2.map Prod.fst
  | [], seen, out, hiff => by rw [resolveRound_nil]; exact hiff
  | r :: rest, seen, out, hiff => by
    by_cases h : iterateResolvedNames r.f r.tries ∈ seen
    · rw [resolveRound_cons_mem r rest seen out h]
      exact resolveRound_seen_iff rest seen out hiff
    · rw [resolveRound_cons_notMem r rest seen out h]
      exact resolveRound_seen_iff rest _ _ (seen_iff_cons hiff _ r.f)

theorem resolveRound_nodup :
    ∀ (p : List Resolver) (seen : List String) (out : List (String × NamedFunction)),
      (∀ x, x ∈ seen ↔ x ∈ out.map Prod.fst) → (out.map Prod.fst).Nodup →
      ((resolveRound p seen out).2.2.map Prod.fst).Nodup
  | [], seen, out, _, hnd => by rw [resolveRound_nil]; exact hnd
  | r :: rest, seen, out, hiff, hnd => by
    by_cases h : iterateResolvedNames r.f r.tries ∈ seen
    · rw [resolveRound_cons_mem r rest seen out h]
      exact resolveRound_nodup rest seen out hiff hnd
    · rw [resolveRound_cons_notMem r rest seen out h]
      refine resolveRound_nodup rest _ _ (seen_iff_cons hiff _ r.f) ?_
      rw [List.map_append]
      simp only [List.map_cons, List.map_nil]
      rw [List.nodup_append]
      refine ⟨hnd, List.nodup_singleton _, ?_⟩
      intro x hx
      simp only [List.mem_singleton]
      intro hx1
      subst hx1
      exact h ((hiff _).mpr hx)

theorem resolveRound_perm :
    ∀ (p : List Resolver) (seen : List String) (out : List (String × NamedFunction)),
      ((resolveRound p seen out).2.2.map Prod.snd ++
        (resolveRound p seen out).1.map Resolver.f).Perm
        (out.map Prod.snd ++ p.map Resolver.f)
  | [], seen, out => by rw [resolveRound_nil]
  | r :: rest, seen, out => by
    by_cases h : iterateResolvedNames r.f r.tries ∈ seen
    · rw [resolveRound_cons_mem r rest seen out h]
      simp only [List.map_cons]
      refine List.Perm.trans List.perm_middle ?_
      refine List.Perm.trans (List.Perm.cons r.f (resolveRound_perm rest seen out)) ?_
      exact List.perm_middle.symm
    · rw [resolveRound_cons_notMem r rest seen out h]
      refine List.Perm.trans (resolveRound_perm rest _ _) ?_
      rw [List.map_append]
      simp only [List.map_cons, List.map_nil, List.map_cons]
      rw [List.append_assoc]
      exact List.Perm.refl _

theorem resolveRound_seen_mono :
    ∀ (p : List Resolver) (seen : List String) (out : List (String × NamedFunction)) (x : String),
      x ∈ seen → x ∈ (resolveRound p seen out).2.1
  | [], seen, out, x, hx => by rw [resolveRound_nil]; exact hx
  | r :: rest, seen, out, x, hx => by
    by_cases h : iterateResolvedNames r.f r.tries ∈ seen
    · rw [resolveRound_cons_mem r rest seen out h]
      exact resolveRound_seen_mono rest seen out x hx
    · rw [resolveRound_cons_notMem r rest seen out h]
      exact resolveRound_seen_mono rest _ _ x (List.mem_cons_of_mem _ hx)

theorem resolveRound_survivor :
    ∀ (p : List Resolver) (seen : List String) (out : List (String × NamedFunction))
      (r' : Resolver), r' ∈ (resolveRound p seen out).1 →
      ∃ r ∈ p, r'.f = r.f ∧ r'.tries = r.tries + 1 ∧
        iterateResolvedNames r.f r.tries ∈ (resolveRound p seen out).2.1
  | [], seen, out, r', h => by rw [resolveRound_nil] at h; exact absurd h (List.not_mem_nil r')
  | r :: rest, seen, out, r', hmem => by
    by_cases h : iterateResolvedNames r.f r.tries ∈ seen
    · rw [resolveRound_cons_mem r rest seen out h] at hmem ⊢
      rcases List.mem_cons.mp hmem with rfl | hmem
      · exact ⟨r, List.mem_cons_self r rest, rfl, rfl,
          resolveRound_seen_mono rest seen out _ h⟩
      · obtain ⟨r₀, hr₀, hf, ht, hname⟩ := resolveRound_survivor rest seen out r' hmem
        exact ⟨r₀, List.mem_cons_of_mem r hr₀, hf, ht, hname⟩
    · rw [resolveRound_cons_notMem r rest seen out h] at hmem ⊢
      obtain ⟨r₀, hr₀, hf, ht, hname⟩ := resolveRound_survivor rest _ _ r' hmem
      exact ⟨r₀, List.mem_cons_of_mem r hr₀, hf, ht, hname⟩

/-! ## The name resolution loop: iterated rounds -/

theorem resolveLoop_zero (p : List Resolver) (seen : List String)
    (out : List (String × NamedFunction)) : resolveLoop 0 p seen out = (p, seen, out) := rfl

theorem resolveLoop_succ_nil (fuel : Nat) (seen : List String)
    (out : List (String × NamedFunction)) :
    resolveLoop (fuel + 1) [] seen out = ([], seen, out) := rfl

theorem resolveLoop_succ_cons (fuel : Nat) (r : Resolver) (rest : List Resolver)
    (seen : List String) (out : List (String × NamedFunction)) :
    resolveLoop (fuel + 1) (r :: rest) seen out =
      resolveLoop fuel (resolveRound (r :: rest) seen out).1
        (resolveRound (r :: rest) seen out).2.1 (resolveRound (r :: rest) seen out).2.2 := rfl

theorem resolveLoop_seen_iff :
    ∀ (fuel : Nat) (p : List Resolver) (seen : List String)
      (out : List (String × NamedFunction)),
      (∀ x, x ∈ seen ↔ x ∈ out.map Prod.fst) →
      ∀ x, x ∈ (resolveLoop fuel p seen out).2.1 ↔
        x ∈ (resolveLoop fuel p seen out).2.2.map Prod.fst
  | 0, p, seen, out, hiff => by rw [resolveLoop_zero]; exact hiff
  | fuel + 1, [], seen, out, hiff => by rw [resolveLoop_succ_nil]; exact hiff
  | fuel + 1, r :: rest, seen, out, hiff => by
    rw [resolveLoop_succ_cons]
    exact resolveLoop_seen_iff fuel _ _ _ (resolveRound_seen_iff (r :: rest) seen out hiff)

theorem resolveLoop_nodup :
    ∀ (fuel : Nat) (p : List Resolver) (seen : List String)
      (out : List (String × NamedFunction)),
      (∀ x, x ∈ seen ↔ x ∈ out.map Prod.fst) → (out.map Prod.fst).Nodup →
      ((resolveLoop fuel p seen out).2.2.map Prod.fst).Nodup
  | 0, p, seen, out, _, hnd => by rw [resolveLoop_zero]; exact hnd
  | fuel + 1, [], seen, out, _, hnd => by rw [resolveLoop_succ_nil]; exact hnd
  | fuel + 1, r :: rest, seen, out, hiff, hnd => by
    rw [resolveLoop_succ_cons]
    exact resolveLoop_nodup fuel _ _ _ (resolveRound_seen_iff (r :: rest) seen out hiff)
      (resolveRound_nodup (r :: rest) seen out hiff hnd)

theorem resolveLoop_perm :
    ∀ (fuel : Nat) (p : List Resolver) (seen : List String)
      (out : List (String × NamedFunction)),
      ((resolveLoop fuel p seen out).2.2.map Prod.snd ++
        (resolveLoop fuel p seen out).1.map Resolver.f).Perm
        (out.map Prod.snd ++ p.map Resolver.f)
  | 0, p, seen, out => by rw [resolveLoop_zero]
  | fuel + 1, [], seen, out => by rw [resolveLoop_succ_nil]
  | fuel + 1, r :: rest, seen, out => by
    rw [resolveLoop_succ_cons]
    exact (resolveLoop_perm fuel _ _ _).trans (resolveRound_perm (r :: rest) seen out)

theorem resolveLoop_seen_mono :
    ∀ (fuel : Nat) (p : List Resolver) (seen : List String)
      (out : List (String × NamedFunction)) (x : String),
      x ∈ seen → x ∈ (resolveLoop fuel p seen out).2.1
  | 0, p, seen, out, x, hx => by rw [resolveLoop_zero]; exact hx
  | fuel + 1, [], seen, out, x, hx => by rw [resolveLoop_succ_nil]; exact hx
  | fuel + 1, r :: rest, seen, out, x, hx => by
    rw [resolveLoop_succ_cons]
    exact resolveLoop_seen_mono fuel _ _ _ x (resolveRound_seen_mono (r :: rest) seen out x hx)

/-- A resolver still pending after `fuel` rounds entered with a generator
position `fuel` lower, and every candidate it tried along the way is in the
final seen set. -/
theorem resolveLoop_survivor :
    ∀ (fuel : Nat) (p : List Resolver) (seen : List String)
      (out : List (String × NamedFunction)) (r' : Resolver),
      r' ∈ (resolveLoop fuel p seen out).1 →
      ∃ r ∈ p, r'.f = r.f ∧ r'.tries = r.tries + fuel ∧
        ∀ j, r.tries ≤ j → j < r.tries + fuel →
          iterateResolvedNames r.f j ∈ (resolveLoop fuel p seen out).2.1
  | 0, p, seen, out, r', hmem => by
    rw [resolveLoop_zero] at hmem ⊢
    exact ⟨r', hmem, rfl, rfl, fun j h1 h2 => absurd h2 (by omega)⟩
  | fuel + 1, [], seen, out, r', hmem => by
    rw [resolveLoop_succ_nil] at hmem
    exact absurd hmem (List.not_mem_nil r')
  | fuel + 1, r₀ :: rest, seen, out, r', hmem => by
    rw [resolveLoop_succ_cons] at hmem ⊢
    obtain ⟨r₁, hr₁, hf₁, ht₁, hn₁⟩ := resolveLoop_survivor fuel _ _ _ r' hmem
    obtain ⟨r, hr, hf, ht, hn⟩ := resolveRound_survivor (r₀ :: rest) seen out r₁ hr₁
    refine ⟨r, hr, hf₁.trans hf, by omega, fun j h1 h2 => ?_⟩
    rcases eq_or_lt_of_le h1 with rfl | hlt
    · exact resolveLoop_seen_mono fuel _ _ _ _ hn
    · have hj1 : r₁.tries ≤ j := by omega
      have hj2 : j < r₁.tries + fuel := by omega
      have hmem2 := hn₁ j hj1 hj2
      rw [hf] at hmem2
      exact hmem2

/-- With `n` pending functions, `n + 2` rounds always empty the pending list:
a resolver surviving all rounds would have tried `n` pairwise distinct
letter-suffix candidates (plus the two initial ones), each recorded in the
seen set, but the seen set holds at most `n - 1` distinct claimed names. -/
theorem resolveLoop_complete (p : List Resolver) (hp : ∀ r ∈ p, r.tries = 0) :
    (resolveLoop (p.length + 2) p [] []).1 = [] := by
  by_contra hne
  obtain ⟨r', hr'⟩ := List.exists_mem_of_ne_nil _ hne
  obtain ⟨r, hr, hf, ht, hnames⟩ := resolveLoop_survivor (p.length + 2) p [] [] r' hr'
  have htr : r.tries = 0 := hp r hr
  have hLnodup : ((List.range p.length).map
      (fun i => iterateResolvedNames r.f (i + 2))).Nodup := by
    refine List.Nodup.map ?_ (List.nodup_range _)
    intro i j hij
    exact iterateResolvedNames_inj_ge_two r.f i j hij
  have hiff := resolveLoop_seen_iff (p.length + 2) p [] [] (by simp)
  have hsub : ((List.range p.length).map (fun i => iterateResolvedNames r.f (i + 2))) ⊆
      (resolveLoop (p.length + 2) p [] []).2.2.map Prod.fst := by
    intro x hx
    obtain ⟨i, hi, rfl⟩ := List.mem_map.mp hx
    rw [List.mem_range] at hi
    exact (hiff _).mp (hnames (i + 2) (by omega) (by omega))
  have hper := (resolveLoop_perm (p.length + 2) p [] []).length_eq
  simp only [List.length_append, List.length_map, List.map_nil, List.nil_append] at hper
  have hsubperm := (List.subperm_of_subset hLnodup hsub).length_le
  simp only [List.length_map, List.length_range] at hsubperm
  have hpend : 0 < (resolveLoop (p.length + 2) p [] []).1.length :=
    List.length_pos_of_mem hr'
  omega

theorem getResolvedFunctions_def (fs : List NamedFunction) :
    getResolvedFunctions fs =
      (resolveLoop (fs.length + 2)
        ((sortBy NamedFunction.cmp fs).map (fun f => ⟨f, 0⟩)) [] []).2.2 := rfl

theorem getResolvedFunctions_snd_perm_sorted (fs : List NamedFunction) :
    ((getResolvedFunctions fs).map Prod.snd).Perm (sortBy NamedFunction.cmp fs) := by
  have hplen : ((sortBy NamedFunction.cmp fs).map
      (fun f => (⟨f, 0⟩ : Resolver))).length = fs.length := by
    rw [List.length_map]
    exact (sortBy_perm NamedFunction.cmp fs).length_eq
  have hcomp := resolveLoop_complete
    ((sortBy NamedFunction.cmp fs).map (fun f => ⟨f, 0⟩))
    (by intro r hr; obtain ⟨f, _, rfl⟩ := List.mem_map.mp hr; rfl)
  rw [hplen] at hcomp
  have hper := resolveLoop_perm (fs.length + 2)
    ((sortBy NamedFunction.cmp fs).map (fun f => ⟨f, 0⟩)) [] []
  rw [hcomp] at hper
  simp only [List.map_nil, List.append_nil, List.nil_append, List.map_map] at hper
  rw [getResolvedFunctions_def]
  refine hper.trans ?_
  have : ((sortBy NamedFunction.cmp fs).map (Resolver.f ∘ fun f => (⟨f, 0⟩ : Resolver))) =
      sortBy NamedFunction.cmp fs := by
    rw [show (Resolver.f ∘ fun f => (⟨f, 0⟩ : Resolver)) = id from rfl, List.map_id]
  rw [this]

theorem getResolvedFunctions_snd_perm (fs : List NamedFunction) :
    ((getResolvedFunctions fs).map Prod.snd).Perm fs :=
  (getResolvedFunctions_snd_perm_sorted fs).trans (sortBy_perm NamedFunction.cmp fs)

theorem getResolvedFunctions_names_nodup (fs : List NamedFunction) :
    ((getResolvedFunctions fs).map Prod.fst).Nodup := by
  rw [getResolvedFunctions_def]
  exact resolveLoop_nodup (fs.length + 2) _ [] [] (by simp) (by simp)

theorem make_name_zero (s : NamedFunction) (h : s.unresolvedRustName = "make") :
    iterateResolvedNames s 0 = "make" := by
  unfold iterateResolvedNames
  exact h

theorem make_name_one (s : NamedFunction) (h : s.unresolvedRustName = "make")
    (ha : s.signature.args = VarList.nil) : iterateResolvedNames s 1 = "make_0" := by
  unfold iterateResolvedNames
  rw [h, ha]
  rfl

theorem make_name_two (s : NamedFunction) (h : s.unresolvedRustName = "make")
    (ha : s.signature.args = VarList.nil) : iterateResolvedNames s 2 = "make_0a" := by
  show iterateResolvedNames s (0 + 2) = "make_0a"
  unfold iterateResolvedNames
  rw [h, ha]
  rfl

theorem three_makes_resolve (s1 s2 s3 : NamedFunction)
    (h1 : s1.unresolvedRustName = "make") (ha1 : s1.signature.args = VarList.nil)
    (h2 : s2.unresolvedRustName = "make") (ha2 : s2.signature.args = VarList.nil)
    (h3 : s3.unresolvedRustName = "make") (ha3 : s3.signature.args = VarList.nil) :
    (resolveLoop 5 [⟨s1, 0⟩, ⟨s2, 0⟩, ⟨s3, 0⟩] [] []).2.2 =
      [("make", s1), ("make_0", s2), ("make_0a", s3)] := by
  have step1 : resolveRound [⟨s1, 0⟩, ⟨s2, 0⟩, ⟨s3, 0⟩] [] [] =
      ([⟨s2, 1⟩, ⟨s3, 1⟩], ["make"], [("make", s1)]) := by
    rw [resolveRound_cons_notMem _ _ _ _ (by simp)]
    simp only [make_name_zero s1 h1]
    rw [resolveRound_cons_mem _ _ _ _ (by simp [make_name_zero s2 h2])]
    rw [resolveRound_cons_mem _ _ _ _ (by simp [make_name_zero s3 h3])]
    rw [resolveRound_nil]
    rfl
  have step2 : resolveRound [⟨s2, 1⟩, ⟨s3, 1⟩] ["make"] [("make", s1)] =
      ([⟨s3, 2⟩], ["make_0", "make"], [("make", s1), ("make_0", s2)]) := by
    rw [resolveRound_cons_notMem _ _ _ _ (by simp [make_name_one s2 h2 ha2])]
    simp only [make_name_one s2 h2 ha2]
    rw [resolveRound_cons_mem _ _ _ _ (by simp [make_name_one s3 h3 ha3])]
    rw [resolveRound_nil]
    rfl
  have step3 : resolveRound [⟨s3, 2⟩] ["make_0", "make"] [("make", s1), ("make_0", s2)] =
      ([], ["make_0a", "make_0", "make"],
        [("make", s1), ("make_0", s2), ("make_0a", s3)]) := by
    rw [resolveRound_cons_notMem _ _ _ _ (by simp [make_name_two s3 h3 ha3])]
    simp only [make_name_two s3 h3 ha3]
    rw [resolveRound_nil]
    rfl
  rw [show (5 : Nat) = 4 + 1 from rfl, resolveLoop_succ_cons, step1]
  rw [show (4 : Nat) = 3 + 1 from rfl, resolveLoop_succ_cons, step2]
  rw [show (3 : Nat) = 2 + 1 from rfl, resolveLoop_succ_cons, step3]
  rw [show (2 : Nat) = 1 + 1 from rfl, resolveLoop_succ_nil]

theorem getResolvedFunctions_three_makes (f1 f2 f3 : NamedFunction)
    (h1 : f1.unresolvedRustName = "make") (ha1 : f1.signature.args = VarList.nil)
    (h2 : f2.unresolvedRustName = "make") (ha2 : f2.signature.args = VarList.nil)
    (h3 : f3.unresolvedRustName = "make") (ha3 : f3.signature.args = VarList.nil) :
    ∃ s1 s2 s3, sortBy NamedFunction.cmp [f1, f2, f3] = [s1, s2, s3] ∧
      getResolvedFunctions [f1, f2, f3] =
        [("make", s1), ("make_0", s2), ("make_0a", s3)] := by
  have hperm := sortBy_perm NamedFunction.cmp [f1, f2, f3]
  have hP : ∀ s ∈ sortBy NamedFunction.cmp [f1, f2, f3],
      s.unresolvedRustName = "make" ∧ s.signature.args = VarList.nil := by
    intro s hs
    have := hperm.subset hs
    simp only [List.mem_cons, List.not_mem_nil, or_false] at this
    rcases this with rfl | rfl | rfl
    · exact ⟨h1, ha1⟩
    · exact ⟨h2, ha2⟩
    · exact ⟨h3, ha3⟩
  have hlen : (sortBy NamedFunction.cmp [f1, f2, f3]).length = 3 := hperm.length_eq
  rcases hsl : sortBy NamedFunction.cmp [f1, f2, f3] with _ | ⟨s1, _ | ⟨s2, _ | ⟨s3, _ | _⟩⟩⟩ <;>
    rw [hsl] at hlen <;> simp at hlen
  rw [hsl] at hP
  have hp1 := hP s1 (by simp)
  have hp2 := hP s2 (by simp)
  have hp3 := hP s3 (by simp)
  refine ⟨s1, s2, s3, rfl, ?_⟩
  rw [getResolvedFunctions_def,
    show ([f1, f2, f3] : List NamedFunction).length + 2 = 5 from rfl, hsl]
  simp only [List.map_cons, List.map_nil]
  exact three_makes_resolve s1 s2 s3 hp1.1 hp1.2 hp2.1 hp2.2 hp3.1 hp3.2

/-! ## ListOfFunctions.add -/

theorem listAdd_of_mem_same (fs : List NamedFunction) (f g : NamedFunction)
    (hg : g ∈ fs) (hsame : NamedFunction.isSameAs f g = true) : listAdd fs f = fs := by
  unfold listAdd
  rw [if_pos (List.any_eq_true.mpr ⟨g, hg, hsame⟩)]

theorem listAdd_of_no_same (fs : List NamedFunction) (f : NamedFunction)
    (h : ∀ g ∈ fs, ¬(NamedFunction.cmp f g = 0)) : listAdd fs f = fs ++ [f] := by
  unfold listAdd
  rw [if_neg]
  intro hany
  obtain ⟨g, hg, hsame⟩ := List.any_eq_true.mp hany
  exact h g hg ((namedFunctionIsSameAs_iff f g).mp hsame)

/-- The operation `add` preserves the invariant that no two stored functions
compare equal. -/
theorem listAdd_pairwise (fs : List NamedFunction) (f : NamedFunction)
    (hp : fs.Pairwise (fun a b => ¬(NamedFunction.cmp a b = 0))) :
    (listAdd fs f).Pairwise (fun a b => ¬(NamedFunction.cmp a b = 0)) := by
  unfold listAdd
  by_cases h : fs.any (fun g => f.isSameAs g)
  · rw [if_pos h]
    exact hp
  · rw [if_neg h]
    rw [List.pairwise_append]
    refine ⟨hp, List.pairwise_singleton _ _, ?_⟩
    intro a ha b hb hz
    simp only [List.mem_singleton] at hb
    rw [List.any_eq_true] at h
    push_neg at h
    refine h a ha ?_
    rw [namedFunctionIsSameAs_iff]
    have hflip := namedFunctionCmp_flip f a
    rw [hb] at hz
    omega

theorem listAddAll_aux_pairwise :
    ∀ (inputs : List NamedFunction) (acc : List NamedFunction),
      acc.Pairwise (fun a b => ¬(NamedFunction.cmp a b = 0)) →
      (inputs.foldl listAdd acc).Pairwise (fun a b => ¬(NamedFunction.cmp a b = 0))
  | [], acc, hp => hp
  | f :: rest, acc, hp =>
    listAddAll_aux_pairwise rest (listAdd acc f) (listAdd_pairwise acc f hp)

theorem listAddAll_pairwise (inputs : List NamedFunction) :
    (listAddAll inputs).Pairwise (fun a b => ¬(NamedFunction.cmp a b = 0)) :=
  listAddAll_aux_pairwise inputs [] List.Pairwise.nil

/-- When the inputs are pairwise distinct under `cmp`, `add` stores all of
them in insertion order. -/
theorem listAddAll_aux_eq :
    ∀ (inputs : List NamedFunction) (acc : List NamedFunction),
      (∀ x ∈ inputs, ∀ y ∈ acc, ¬(NamedFunction.cmp x y = 0)) →
      inputs.Pairwise (fun a b => ¬(NamedFunction.cmp a b = 0)) →
      inputs.foldl listAdd acc = acc ++ inputs
  | [], acc, _, _ => by simp
  | f :: rest, acc, hcross, hp => by
    rw [List.foldl_cons]
    rw [listAdd_of_no_same acc f (fun g hg => hcross f (List.mem_cons_self f rest) g hg)]
    rw [List.pairwise_cons] at hp
    rw [listAddAll_aux_eq rest (acc ++ [f]) ?_ hp.2]
    · simp
    · intro x hx y hy
      rcases List.mem_append.mp hy with hy | hy
      · exact hcross x (List.mem_cons_of_mem f hx) y hy
      · simp only [List.mem_singleton] at hy
        subst hy
        intro hz
        have hflip := namedFunctionCmp_flip y x
        exact hp.1 x hx (by omega)

theorem listAddAll_eq_self (inputs : List NamedFunction)
    (hp : inputs.Pairwise (fun a b => ¬(NamedFunction.cmp a b = 0))) :
    listAddAll inputs = inputs := by
  unfold listAddAll
  rw [listAddAll_aux_eq inputs [] (by simp) hp]
  simp

/-! ## Determinism of getResolvedFunctions -/

theorem namedFunction_ne_symm :
    Symmetric (fun a b : NamedFunction => ¬(NamedFunction.cmp a b = 0)) := by
  intro a b h hz
  have := namedFunctionCmp_flip a b
  exact h (by omega)

theorem getResolvedFunctions_order_independent (i1 i2 : List NamedFunction)
    (hperm : i1.Perm i2)
    (hd : i1.Pairwise (fun a b => ¬(NamedFunction.cmp a b = 0))) :
    getResolvedFunctions (listAddAll i1) = getResolvedFunctions (listAddAll i2) := by
  have hd2 : i2.Pairwise (fun a b => ¬(NamedFunction.cmp a b = 0)) :=
    (hperm.pairwise_iff (fun {x y} h => namedFunction_ne_symm h)).mp hd
  rw [listAddAll_eq_self i1 hd, listAddAll_eq_self i2 hd2]
  have hsorteq : sortBy NamedFunction.cmp i1 = sortBy NamedFunction.cmp i2 := by
    refine sorted_perm_eq NamedFunction.cmp namedFunctionCmp_flip _ _
      ((sortBy_perm _ i1).trans (hperm.trans (sortBy_perm _ i2).symm))
      (sortBy_pairwise namedFunctionCmp_flip namedFunctionCmp_le_trans i1)
      (sortBy_pairwise namedFunctionCmp_flip namedFunctionCmp_le_trans i2) ?_
    exact ((sortBy_perm _ i1).pairwise_iff (fun {x y} h => namedFunction_ne_symm h)).mpr hd
  rw [getResolvedFunctions_def, getResolvedFunctions_def, hsorteq, hperm.length_eq]

/-! ## escapeRustName character shape -/

theorem hexDigitChar_rustName : ∀ k : Fin 16, isRustNameChar (hexDigitChar k.val) = true := by
  decide

theorem hexDigits_rustName : ∀ n : Nat, ∀ c ∈ hexDigits n, isRustNameChar c = true := by
  intro n
  induction n using Nat.strong_induction_on with
  | _ n ih =>
    intro c hc
    by_cases h : n < 16
    · rw [hexDigits, dif_pos h] at hc
      simp only [List.mem_singleton] at hc
      subst hc
      exact hexDigitChar_rustName ⟨n, h⟩
    · rw [hexDigits, dif_neg h] at hc
      rcases List.mem_append.mp hc with hc | hc
      · exact ih (n / 16) (Nat.div_lt_self (by omega) (by norm_num)) c hc
      · simp only [List.mem_singleton] at hc
        subst hc
        exact hexDigitChar_rustName ⟨n % 16, Nat.mod_lt n (by norm_num)⟩

theorem escapeRustNameChars_all :
    ∀ (l : List Char) (i : Nat), ∀ c ∈ escapeRustNameChars l i, isRustNameChar c = true
  | [], _, c, hc => absurd hc (List.not_mem_nil c)
  | ch :: rest, i, c, hc => by
    unfold escapeRustNameChars at hc
    by_cases h1 : (97 ≤ ch.toNat ∧ ch.toNat ≤ 122) ∨ (65 ≤ ch.toNat ∧ ch.toNat ≤ 90) ∨
        (48 ≤ ch.toNat ∧ ch.toNat ≤ 57 ∧ 0 < i) ∨ ch.toNat = 95
    · rw [if_pos h1] at hc
      rcases List.mem_cons.mp hc with rfl | hc
      · unfold isRustNameChar
        simp only [decide_eq_true_eq]
        omega
      · exact escapeRustNameChars_all rest (i + 1) c hc
    · rw [if_neg h1] at hc
      by_cases h2 : ch.toNat = 45 ∨ ch.toNat = 46
      · rw [if_pos h2] at hc
        rcases List.mem_cons.mp hc with rfl | hc
        · decide
        · exact escapeRustNameChars_all rest (i + 1) c hc
      · rw [if_neg h2] at hc
        rcases List.mem_append.mp hc with hc | hc
        · rcases List.mem_cons.mp hc with rfl | hc
          · decide
          · rcases List.mem_cons.mp hc with rfl | hc
            · decide
            · rcases List.mem_cons.mp hc with rfl | hc
              · decide
              · exact hexDigits_rustName ch.toNat c hc
        · exact escapeRustNameChars_all rest (i + 1) c hc

theorem escapeRustNameChars_head_not_digit :
    ∀ (l : List Char) (c : Char), (escapeRustNameChars l 0).head? = some c →
      isAsciiDigit c = false
  | [], c, hc => by simp [escapeRustNameChars] at hc
  | ch :: rest, c, hc => by
    unfold escapeRustNameChars at hc
    by_cases h1 : (97 ≤ ch.toNat ∧ ch.toNat ≤ 122) ∨ (65 ≤ ch.toNat ∧ ch.toNat ≤ 90) ∨
        (48 ≤ ch.toNat ∧ ch.toNat ≤ 57 ∧ 0 < 0) ∨ ch.toNat = 95
    · rw [if_pos h1] at hc
      simp only [List.head?_cons, Option.some_inj] at hc
      subst hc
      unfold isAsciiDigit
      simp only [decide_eq_false_iff_not]
      omega
    · rw [if_neg h1] at hc
      by_cases h2 : ch.toNat = 45 ∨ ch.toNat = 46
      · rw [if_pos h2] at hc
        simp only [List.head?_cons, Option.some_inj] at hc
        subst hc
        decide
      · rw [if_neg h2] at hc
        simp only [List.cons_append, List.head?_cons, Option.some_inj] at hc
        subst hc
        decide

theorem escapeRustName_all (s : String) :
    ∀ c ∈ (escapeRustName s).data, isRustNameChar c = true := by
  intro c hc
  unfold escapeRustName at hc
  exact escapeRustNameChars_all _ 0 c hc

theorem escapeRustName_head_not_digit (s : String) (c : Char)
    (hc : (escapeRustName s).data.head? = some c) : isAsciiDigit c = false := by
  unfold escapeRustName at hc
  exact escapeRustNameChars_head_not_digit _ c hc

theorem optional_ne_self : ∀ t : Ty, ¬(cmpTypes (Ty.optional t) t = 0)
  | .optional s => by
    rw [cmpTypes_optional_eq]
    exact optional_ne_self s
  | .any => by
    intro h
    rw [cmpTypes_eq_of_kind_ne _ _ (by simp only [Ty.kind]; decide)] at h
    exact absurd ((localeCompare_eq_zero_iff _ _).mp h) (by simp only [Ty.kind]; decide)
  | .unknown => by
    intro h
    rw [cmpTypes_eq_of_kind_ne _ _ (by simp only [Ty.kind]; decide)] at h
    exact absurd ((localeCompare_eq_zero_iff _ _).mp h) (by simp only [Ty.kind]; decide)
  | .number => by
    intro h
    rw [cmpTypes_eq_of_kind_ne _ _ (by simp only [Ty.kind]; decide)] at h
    exact absurd ((localeCompare_eq_zero_iff _ _).mp h) (by simp only [Ty.kind]; decide)
  | .stringT => by
    intro h
    rw [cmpTypes_eq_of_kind_ne _ _ (by simp only [Ty.kind]; decide)] at h
    exact absurd ((localeCompare_eq_zero_iff _ _).mp h) (by simp only [Ty.kind]; decide)
  | .bool => by
    intro h
    rw [cmpTypes_eq_of_kind_ne _ _ (by simp only [Ty.kind]; decide)] at h
    exact absurd ((localeCompare_eq_zero_iff _ _).mp h) (by simp only [Ty.kind]; decide)
  | .symbol => by
    intro h
    rw [cmpTypes_eq_of_kind_ne _ _ (by simp only [Ty.kind]; decide)] at h
    exact absurd ((localeCompare_eq_zero_iff _ _).mp h) (by simp only [Ty.kind]; decide)
  | .undefinedT => by
    intro h
    rw [cmpTypes_eq_of_kind_ne _ _ (by simp only [Ty.kind]; decide)] at h
    exact absurd ((localeCompare_eq_zero_iff _ _).mp h) (by simp only [Ty.kind]; decide)
  | .nullT => by
    intro h
    rw [cmpTypes_eq_of_kind_ne _ _ (by simp only [Ty.kind]; decide)] at h
    exact absurd ((localeCompare_eq_zero_iff _ _).mp h) (by simp only [Ty.kind]; decide)
  | .voidT => by
    intro h
    rw [cmpTypes_eq_of_kind_ne _ _ (by simp only [Ty.kind]; decide)] at h
    exact absurd ((localeCompare_eq_zero_iff _ _).mp h) (by simp only [Ty.kind]; decide)
  | .neverT => by
    intro h
    rw [cmpTypes_eq_of_kind_ne _ _ (by simp only [Ty.kind]; decide)] at h
    exact absurd ((localeCompare_eq_zero_iff _ _).mp h) (by simp only [Ty.kind]; decide)
  | .classT r n => by
    intro h
    rw [cmpTypes_eq_of_kind_ne _ _ (by simp only [Ty.kind]; decide)] at h
    exact absurd ((localeCompare_eq_zero_iff _ _).mp h) (by simp only [Ty.kind]; decide)
  | .interfaceT r n => by
    intro h
    rw [cmpTypes_eq_of_kind_ne _ _ (by simp only [Ty.kind]; decide)] at h
    exact absurd ((localeCompare_eq_zero_iff _ _).mp h) (by simp only [Ty.kind]; decide)
  | .function f => by
    intro h
    rw [cmpTypes_eq_of_kind_ne _ _ (by simp only [Ty.kind]; decide)] at h
    exact absurd ((localeCompare_eq_zero_iff _ _).mp h) (by simp only [Ty.kind]; decide)

/-! ## The claims -/

/-- C1: for every `ListOfFunctions` and every set of functions added to it,
`getResolvedFunctions()` contains exactly one entry per stored function
(the second components are a permutation of the stored list) and the
resolved names are pairwise distinct. -/
theorem claim_C1 (inputs : List NamedFunction) :
    ((getResolvedFunctions (listAddAll inputs)).map Prod.snd).Perm (listAddAll inputs) ∧
      ((getResolvedFunctions (listAddAll inputs)).map Prod.fst).Nodup :=
  ⟨getResolvedFunctions_snd_perm _, getResolvedFunctions_names_nodup _⟩

/-- C2, counterexample: two distinct `NamedFunction`s that `cmp` cannot tell
apart (same name and signature, different `docs`/`jsName`) are deduplicated
by `add`, and the insertion order decides which one is stored, so the
assignment of resolved names to functions differs between the two orders. -/
theorem claim_C2_counterexample :
    ((getResolvedFunctions (listAddAll
        [⟨"foo", "foo", FunctionType.mk VarList.nil Ty.number "number", "docA"⟩,
         ⟨"foo", "fooAlias", FunctionType.mk VarList.nil Ty.number "number", "docB"⟩])).map
      (fun p => p.2.docs) = ["docA"]) ∧
    ((getResolvedFunctions (listAddAll
        [⟨"foo", "fooAlias", FunctionType.mk VarList.nil Ty.number "number", "docB"⟩,
         ⟨"foo", "foo", FunctionType.mk VarList.nil Ty.number "number", "docA"⟩])).map
      (fun p => p.2.docs) = ["docB"]) ∧
    getResolvedFunctions (listAddAll
        [⟨"foo", "foo", FunctionType.mk VarList.nil Ty.number "number", "docA"⟩,
         ⟨"foo", "fooAlias", FunctionType.mk VarList.nil Ty.number "number", "docB"⟩]) ≠
      getResolvedFunctions (listAddAll
        [⟨"foo", "fooAlias", FunctionType.mk VarList.nil Ty.number "number", "docB"⟩,
         ⟨"foo", "foo", FunctionType.mk VarList.nil Ty.number "number", "docA"⟩]) := by
  refine ⟨by decide, by decide, fun h => ?_⟩
  have h3 := congrArg (List.map (fun p : String × NamedFunction => p.2.docs)) h
  rw [show (getResolvedFunctions (listAddAll
        [⟨"foo", "foo", FunctionType.mk VarList.nil Ty.number "number", "docA"⟩,
         ⟨"foo", "fooAlias", FunctionType.mk VarList.nil Ty.number "number", "docB"⟩])).map
      (fun p => p.2.docs) = ["docA"] by decide,
    show (getResolvedFunctions (listAddAll
        [⟨"foo", "fooAlias", FunctionType.mk VarList.nil Ty.number "number", "docB"⟩,
         ⟨"foo", "foo", FunctionType.mk VarList.nil Ty.number "number", "docA"⟩])).map
      (fun p => p.2.docs) = ["docB"] by decide] at h3
  simp at h3

/-- C2, amended: when no two distinct added functions are `isSameAs`-equal
(`cmp == 0`), building the list in any two insertion orders yields the same
resolved-name assignment. -/
theorem claim_C2 (i1 i2 : List NamedFunction) (hperm : i1.Perm i2)
    (hd : i1.Pairwise (fun a b => ¬(NamedFunction.cmp a b = 0))) :
    getResolvedFunctions (listAddAll i1) = getResolvedFunctions (listAddAll i2) :=
  getResolvedFunctions_order_independent i1 i2 hperm hd

/-- C2, witness: the amended theorem applied to two insertion orders of two
functions with different names. -/
theorem claim_C2_witness :
    getResolvedFunctions (listAddAll
      [⟨"alpha", "alpha", FunctionType.mk VarList.nil Ty.number "number", "d1"⟩,
       ⟨"beta", "beta", FunctionType.mk VarList.nil Ty.bool "boolean", "d2"⟩]) =
    getResolvedFunctions (listAddAll
      [⟨"beta", "beta", FunctionType.mk VarList.nil Ty.bool "boolean", "d2"⟩,
       ⟨"alpha", "alpha", FunctionType.mk VarList.nil Ty.number "number", "d1"⟩]) :=
  claim_C2 _ _
    (List.Perm.swap
      (⟨"beta", "beta", FunctionType.mk VarList.nil Ty.bool "boolean", "d2"⟩ : NamedFunction)
      (⟨"alpha", "alpha", FunctionType.mk VarList.nil Ty.number "number", "d1"⟩ : NamedFunction) [])
    (by
      refine List.Pairwise.cons ?_ (List.pairwise_singleton _ _)
      intro g hg
      rw [List.mem_singleton] at hg
      subst hg
      decide)

/-- C3, counterexample: three zero-argument overloads named `make` differing
only in return type resolve to `make`, `make_0`, `make_0a` — not to
`make`, `make_0a`, `make_0b` as the claim states (`make_0b` never occurs). -/
theorem claim_C3_counterexample :
    ((getResolvedFunctions
        [⟨"make", "make", FunctionType.mk VarList.nil Ty.number "number", "d1"⟩,
         ⟨"make", "make", FunctionType.mk VarList.nil Ty.stringT "string", "d2"⟩,
         ⟨"make", "make", FunctionType.mk VarList.nil Ty.bool "boolean", "d3"⟩]).map
      Prod.fst = ["make", "make_0", "make_0a"]) ∧
    ¬((getResolvedFunctions
        [⟨"make", "make", FunctionType.mk VarList.nil Ty.number "number", "d1"⟩,
         ⟨"make", "make", FunctionType.mk VarList.nil Ty.stringT "string", "d2"⟩,
         ⟨"make", "make", FunctionType.mk VarList.nil Ty.bool "boolean", "d3"⟩]).map
      Prod.fst = ["make", "make_0a", "make_0b"]) ∧
    "make_0b" ∉ ((getResolvedFunctions
        [⟨"make", "make", FunctionType.mk VarList.nil Ty.number "number", "d1"⟩,
         ⟨"make", "make", FunctionType.mk VarList.nil Ty.stringT "string", "d2"⟩,
         ⟨"make", "make", FunctionType.mk VarList.nil Ty.bool "boolean", "d3"⟩]).map
      Prod.fst) := by
  refine ⟨by decide, by decide, by decide⟩

/-- C3, amended: a `ListOfFunctions` holding exactly three zero-argument
functions all named `make` resolves them to `make`, `make_0`, `make_0a`, in
`cmp`-sorted order. -/
theorem claim_C3 (f1 f2 f3 : NamedFunction)
    (h1 : f1.unresolvedRustName = "make") (ha1 : f1.signature.args = VarList.nil)
    (h2 : f2.unresolvedRustName = "make") (ha2 : f2.signature.args = VarList.nil)
    (h3 : f3.unresolvedRustName = "make") (ha3 : f3.signature.args = VarList.nil) :
    ∃ s1 s2 s3, sortBy NamedFunction.cmp [f1, f2, f3] = [s1, s2, s3] ∧
      getResolvedFunctions [f1, f2, f3] =
        [("make", s1), ("make_0", s2), ("make_0a", s3)] :=
  getResolvedFunctions_three_makes f1 f2 f3 h1 ha1 h2 ha2 h3 ha3

/-- C3, witness: the amended theorem applied to three concrete `make`
overloads. -/
theorem claim_C3_witness :
    ∃ s1 s2 s3,
      sortBy NamedFunction.cmp
        [⟨"make", "make", FunctionType.mk VarList.nil Ty.number "number", "d1"⟩,
         ⟨"make", "make", FunctionType.mk VarList.nil Ty.stringT "string", "d2"⟩,
         ⟨"make", "make", FunctionType.mk VarList.nil Ty.bool "boolean", "d3"⟩] =
        [s1, s2, s3] ∧
      getResolvedFunctions
        [⟨"make", "make", FunctionType.mk VarList.nil Ty.number "number", "d1"⟩,
         ⟨"make", "make", FunctionType.mk VarList.nil Ty.stringT "string", "d2"⟩,
         ⟨"make", "make", FunctionType.mk VarList.nil Ty.bool "boolean", "d3"⟩] =
        [("make", s1), ("make_0", s2), ("make_0a", s3)] :=
  claim_C3 _ _ _ rfl rfl rfl rfl rfl rfl

/-- C4: `cmpTypes` behaves as a total-order comparator on its zero relation:
reflexive, zero-symmetric, and zero-transitive. -/
theorem claim_C4 :
    (∀ a : Ty, cmpTypes a a = 0) ∧
    (∀ a b : Ty, cmpTypes a b = 0 ↔ cmpTypes b a = 0) ∧
    (∀ a b c : Ty, cmpTypes a b = 0 → cmpTypes b c = 0 → cmpTypes a c = 0) :=
  ⟨cmpTypes_refl, cmpTypes_zero_symm, cmpTypes_zero_trans⟩

/-- C4, witness: transitivity applied at concrete types. -/
theorem claim_C4_witness :
    cmpTypes (Ty.optional Ty.number) (Ty.optional Ty.number) = 0 :=
  claim_C4.2.2 (Ty.optional Ty.number) (Ty.optional Ty.number) (Ty.optional Ty.number)
    (by decide) (by decide)

/-- C5, counterexample: the collector wraps unconditionally, so wrapping the
already-`canBeUndefined` type `Any` in `Optional` is NOT a structural no-op:
the result is `Optional(Any)` and `cmpTypes` distinguishes it from `Any`. -/
theorem claim_C5_counterexample :
    Ty.any.canBeUndefined = true ∧
    collectWrapOptional true Ty.any = OptionalOf Ty.any ∧
    ¬(cmpTypes (collectWrapOptional true Ty.any) Ty.any = 0) := by
  refine ⟨rfl, rfl, by decide⟩

/-- C5, amended: during collection an optional symbol's type is always
wrapped, producing `Optional(t)`, which is never structurally equal
(`cmpTypes == 0`) to `t` — even when `t.canBeUndefined` is true.  (The
no-double-`Option` collapsing happens in the emitter, not in collection.) -/
theorem claim_C5 (t : Ty) (h : t.canBeUndefined = true) :
    collectWrapOptional true t = OptionalOf t ∧
      ¬(cmpTypes (collectWrapOptional true t) t = 0) :=
  ⟨rfl, optional_ne_self t⟩

/-- C5, witness: the amended theorem applied at `Any`. -/
theorem claim_C5_witness :
    Ty.any.canBeUndefined = true ∧
      (collectWrapOptional true Ty.any = OptionalOf Ty.any ∧
        ¬(cmpTypes (collectWrapOptional true Ty.any) Ty.any = 0)) :=
  ⟨rfl, claim_C5 Ty.any rfl⟩

/-- C6: in the diamond `A → {B, C} → D` (nodes 0, 1, 2, 3),
`forEachSuperImpl` on A emits D exactly once, D before B and before C, and
every occurrence of B and C before any occurrence of A (A is in fact never
emitted: the emitted sequence is exactly `[D, B, C]`). -/
theorem claim_C6 :
    interfaceForEachSuperImpl diamondImpls 0 4 = [3, 1, 2] ∧
    (interfaceForEachSuperImpl diamondImpls 0 4).count 3 = 1 ∧
    (interfaceForEachSuperImpl diamondImpls 0 4).indexOf 3 <
      (interfaceForEachSuperImpl diamondImpls 0 4).indexOf 1 ∧
    (interfaceForEachSuperImpl diamondImpls 0 4).indexOf 3 <
      (interfaceForEachSuperImpl diamondImpls 0 4).indexOf 2 ∧
    (interfaceForEachSuperImpl diamondImpls 0 4).indexOf 1 <
      (interfaceForEachSuperImpl diamondImpls 0 4).indexOf 0 ∧
    (interfaceForEachSuperImpl diamondImpls 0 4).indexOf 2 <
      (interfaceForEachSuperImpl diamondImpls 0 4).indexOf 0 := by
  refine ⟨by decide, by decide, by decide, by decide, by decide, by decide⟩

/-- C7: `add` is a no-op when an `isSameAs`-equal function is stored;
adding the same function twice stores exactly one copy; and the stored list
never holds two functions with `cmp == 0`. -/
theorem claim_C7 :
    (∀ f g : NamedFunction, NamedFunction.isSameAs f g = true → listAddAll [f, g] = [f]) ∧
    (∀ (fs : List NamedFunction) (f g : NamedFunction), g ∈ fs →
      NamedFunction.isSameAs f g = true → listAdd fs f = fs) ∧
    (∀ inputs : List NamedFunction,
      (listAddAll inputs).Pairwise (fun a b => ¬(NamedFunction.cmp a b = 0))) := by
  refine ⟨?_, ?_, listAddAll_pairwise⟩
  · intro f g hsame
    show listAdd (listAdd [] f) g = [f]
    rw [show listAdd [] f = [f] from rfl]
    apply listAdd_of_mem_same [f] g f (List.mem_singleton_self f)
    rw [namedFunctionIsSameAs_iff] at hsame ⊢
    have := namedFunctionCmp_flip f g
    omega
  · intro fs f g hg hsame
    exact listAdd_of_mem_same fs f g hg hsame

/-- C7, witness: adding the same concrete function twice stores one copy. -/
theorem claim_C7_witness :
    NamedFunction.isSameAs
      ⟨"dup", "dup", FunctionType.mk VarList.nil Ty.number "number", "d"⟩
      ⟨"dup", "dup", FunctionType.mk VarList.nil Ty.number "number", "d"⟩ = true ∧
    listAddAll
      [⟨"dup", "dup", FunctionType.mk VarList.nil Ty.number "number", "d"⟩,
       ⟨"dup", "dup", FunctionType.mk VarList.nil Ty.number "number", "d"⟩] =
      [⟨"dup", "dup", FunctionType.mk VarList.nil Ty.number "number", "d"⟩] :=
  ⟨by decide, claim_C7.1 _ _ (by decide)⟩

/-- C8: `numToAbc` is injective on the non-negative integers, and maps
0 to "a", 25 to "z" and 26 to "ba". -/
theorem claim_C8 :
    (∀ m n : Int, 0 ≤ m → 0 ≤ n → m ≠ n → numToAbc m ≠ numToAbc n) ∧
    numToAbc 0 = "a" ∧ numToAbc 25 = "z" ∧ numToAbc 26 = "ba" := by
  refine ⟨fun m n hm hn hne h => hne (numToAbc_inj_nonneg m n hm hn h), rfl, ?_, ?_⟩
  · simp [numToAbc, abcDigits]
  · simp [numToAbc, abcDigits]

/-- C8, witness: injectivity applied at 0 and 26. -/
theorem claim_C8_witness :
    (0 : Int) ≤ 0 ∧ (0 : Int) ≤ 26 ∧ (0 : Int) ≠ 26 ∧ numToAbc 0 ≠ numToAbc 26 :=
  ⟨by norm_num, by norm_num, by norm_num,
    claim_C8.1 0 26 (by norm_num) (by norm_num) (by norm_num)⟩

/-- C9: constructing a namespace with an empty name and a defined parent
throws; constructing the root (empty name, no parent) succeeds. -/
theorem claim_C9 :
    (∀ p : Namespace, mkNamespace (some p) "" = Except.error "terminating...") ∧
    mkNamespace none "" = Except.ok (Namespace.mk none "") := by
  constructor
  · intro p
    unfold mkNamespace
    rw [if_pos ⟨rfl, rfl⟩]
  · rfl

/-- C10: every character `escapeRustName` emits is an ASCII letter, digit or
underscore; the first character is never a digit; and the `rustName` stored
by the `ClassOrInterface` constructor is such a string. -/
theorem claim_C10 :
    (∀ s : String, ∀ c ∈ (escapeRustName s).data, isRustNameChar c = true) ∧
    (∀ (s : String) (c : Char), (escapeRustName s).data.head? = some c →
      isAsciiDigit c = false) ∧
    (∀ jsName docs : String, ∀ c ∈ (mkClassOrInterface jsName docs).rustName.data,
      isRustNameChar c = true) :=
  ⟨escapeRustName_all, escapeRustName_head_not_digit,
    fun jsName _ => escapeRustName_all jsName⟩

/-- C10, witness: the character facts applied to a concrete name. -/
theorem claim_C10_witness :
    ('a' ∈ (escapeRustName "ab").data ∧ isRustNameChar 'a' = true) ∧
      ((escapeRustName "ab").data.head? = some 'a' ∧ isAsciiDigit 'a' = false) :=
  ⟨⟨by simp [escapeRustName, stripQuotes, rustKeywords, escapeRustNameChars],
    claim_C10.1 "ab" 'a'
      (by simp [escapeRustName, stripQuotes, rustKeywords, escapeRustNameChars])⟩,
   ⟨by simp [escapeRustName, stripQuotes, rustKeywords, escapeRustNameChars],
    claim_C10.2.1 "ab" 'a'
      (by simp [escapeRustName, stripQuotes, rustKeywords, escapeRustNameChars])⟩⟩
